import Mathlib

/-! Huffman compression core of `Data Compression Tool.cpp`

A shallow embedding of the class `Huffman` (frequency table, tree
construction through a `std::priority_queue`, code table, bit packing) and
theorems about it.

Conventions of the embedding

* a `char` is its integer value (`Sym`); `'\0'` is `0`;
* `std::map<char, V>` is an association list kept in ascending key order
  (`CharMap V`), which is also the order in which the map is iterated;
* an `int` is an integer; the addition of two frequencies in the constructor
  of `InternalNode` wraps to 32 bits as on two's complement hardware
  (`wrapInt`), the increment of a counter in `buildFreqTable` is exact;
* a `huffmanNode*` that owns its subtree is the subtree itself, a pointer that
  may be null is an `Option`;
* `std::vector<T>` is `List T`; the heap algorithms behind
  `std::priority_queue` follow the GNU implementation (`__push_heap`,
  `__adjust_heap`, `__pop_heap`);
* a read beyond the end of a buffer, `top()` on an empty queue and the like
  are undefined behaviour and yield `none`;
* the bytes written to the output file are collected in a list of numbers
  below 256; `outfile.write` of the first byte of an `unsigned long` is taken
  to store its low byte (a little-endian machine).
-/

namespace Huffman

/-- A `char`, as its integer value. -/
abbrev Sym := Int

/-- The container `std::map<char, V>`: entries in ascending key order. -/
abbrev CharMap (β : Type) := List (Sym × β)

namespace CharMap

/-- The invariant of `std::map`: keys strictly ascending (hence distinct). -/
def WF {β : Type} (m : CharMap β) : Prop :=
  m.Pairwise (fun a b => a.1 < b.1)

/-- Lookup `map::find`, as an option. -/
def find {β : Type} : CharMap β → Sym → Option β
  | [], _ => none
  | (k', v') :: rest, k => if k = k' then some v' else find rest k

/-- Set the value stored under `k`, inserting the key in order when absent
(what `m[k] = v` does). -/
def assign {β : Type} : CharMap β → Sym → β → CharMap β
  | [], k, v => [(k, v)]
  | (k', v') :: rest, k, v =>
    if k < k' then (k, v) :: (k', v') :: rest
    else if k = k' then (k, v) :: rest
    else (k', v') :: assign rest k v

/-- The subscript `m[k]` used as an rvalue: the stored value, or a freshly
inserted value-initialised entry (`dflt`) when the key is absent. Returns the
value and the map after the call. -/
def subscript {β : Type} (dflt : β) (m : CharMap β) (k : Sym) : β × CharMap β :=
  match find m k with
  | some v => (v, m)
  | none => (dflt, assign m k dflt)

/-- The keys of the map, in iteration order. -/
def keys {β : Type} (m : CharMap β) : List Sym := m.map Prod.fst

end CharMap

/-- The class hierarchy `huffmanNode` / `LeafNode` / `InternalNode`: every
node carries `frq`, a leaf a character, an internal node its two owned
children. -/
inductive huffmanNode where
  | LeafNode (c : Sym) (frq : Int) : huffmanNode
  | InternalNode (frq : Int) (left right : huffmanNode) : huffmanNode
  deriving DecidableEq, Repr

namespace huffmanNode

/-- The member `frq` of the base class. -/
def frq : huffmanNode → Int
  | LeafNode _ f => f
  | InternalNode f _ _ => f

end huffmanNode

/-- The value an `int` holds after an addition whose exact result is `x`:
`x` reduced modulo `2 ^ 32` into the range from `-2 ^ 31` to `2 ^ 31 - 1`. -/
def wrapInt (x : Int) : Int := (x + 2147483648) % 4294967296 - 2147483648

namespace huffmanNode

/-- The constructor `InternalNode(lChild, rChild)`: the frequency is the `int`
sum `lChild->frq + rChild->frq`. -/
def mkInternal (lChild rChild : huffmanNode) : huffmanNode :=
  InternalNode (wrapInt (lChild.frq + rChild.frq)) lChild rChild

end huffmanNode

open huffmanNode

/-- The comparator `myFreqComp::operator()`. -/
def myFreqComp (lNode rNode : huffmanNode) : Bool :=
  decide (lNode.frq > rNode.frq)

/-! ## `buildFreqTable` -/

/-- The statement `freqMapping[c]++`. -/
def incr (freqMapping : CharMap Int) (c : Sym) : CharMap Int :=
  let r := CharMap.subscript 0 freqMapping c
  CharMap.assign r.2 c (r.1 + 1)

/-- The inner loop of `buildFreqTable` over the contents of `buffer` from
`idx` on: `while(buffer[idx]!='\0') freqMapping[buffer[idx++]]++;`.
Running off the end of the buffer is undefined behaviour (`none`). -/
def countChunk : List Sym → CharMap Int → Option (CharMap Int)
  | [], _ => none
  | c :: rest, freqMapping =>
    if c ≠ 0 then countChunk rest (incr freqMapping c) else some freqMapping

/-- The outer loop of `buildFreqTable`: `reads` lists the contents of `buffer`
after each `inputfile.read`, one per iteration of `while(inputfile)`. -/
def countChunks : List (List Sym) → CharMap Int → Option (CharMap Int)
  | [], freqMapping => some freqMapping
  | buffer :: more, freqMapping =>
    match countChunk buffer freqMapping with
    | none => none
    | some m => countChunks more m

/-- The method `buildFreqTable`, on the initially empty `freqMapping`. -/
def buildFreqTable (reads : List (List Sym)) : Option (CharMap Int) :=
  countChunks reads []

/-! ## `buildHuffmanCodes` -/

/-- The method `buildHuffmanCodes` on a non-null node: a leaf stores the
current code, an internal node appends `false`, descends left, turns the last
bit into `true`, descends right. -/
def buildHuffmanCodesNode :
    List Bool → huffmanNode → CharMap (List Bool) → CharMap (List Bool)
  | prefixCode, LeafNode c _, codeMapping => CharMap.assign codeMapping c prefixCode
  | prefixCode, InternalNode _ left right, codeMapping =>
    let prefixCode1 := prefixCode ++ [false]
    let codeMapping1 := buildHuffmanCodesNode prefixCode1 left codeMapping
    let prefixCode2 := prefixCode1.set (prefixCode1.length - 1) true
    buildHuffmanCodesNode prefixCode2 right codeMapping1

/-- The method `buildHuffmanCodes`, with its guard `if(!root) return;`. -/
def buildHuffmanCodes (prefixCode : List Bool) (root : Option huffmanNode)
    (codeMapping : CharMap (List Bool)) : CharMap (List Bool) :=
  match root with
  | none => codeMapping
  | some node => buildHuffmanCodesNode prefixCode node codeMapping

/-! ## `std::priority_queue` over a vector -/

/-- The loop of `std::__push_heap`: while the hole is below `topIndex` and the
parent compares before `value`, move the parent into the hole; finally store
`value` in the hole. The hole index strictly decreases, `fuel` bounds the
iterations. -/
def pushHeapAux {α : Type} (comp : α → α → Bool) (topIndex : Nat) (value : α) :
    Nat → Nat → List α → List α
  | 0, holeIndex, first => first.set holeIndex value
  | fuel + 1, holeIndex, first =>
    let parent := (holeIndex - 1) / 2
    if holeIndex > topIndex && comp (first.getD parent value) value then
      pushHeapAux comp topIndex value fuel parent
        (first.set holeIndex (first.getD parent value))
    else first.set holeIndex value

/-- The function `std::__push_heap(first, holeIndex, topIndex, value, comp)`. -/
def pushHeap {α : Type} (comp : α → α → Bool) (first : List α)
    (holeIndex topIndex : Nat) (value : α) : List α :=
  pushHeapAux comp topIndex value holeIndex holeIndex first

/-- The first loop of `std::__adjust_heap`: move the hole down to the bottom,
each time pulling up the child that does not compare before its sibling.
Returns the array, the hole index and `secondChild`. -/
def adjustDown {α : Type} (comp : α → α → Bool) (len : Nat) (value : α) :
    Nat → Nat → Nat → List α → List α × Nat × Nat
  | 0, holeIndex, secondChild, first => (first, holeIndex, secondChild)
  | fuel + 1, holeIndex, secondChild, first =>
    if secondChild < (len - 1) / 2 then
      let secondChild1 := 2 * (secondChild + 1)
      let secondChild2 :=
        if comp (first.getD secondChild1 value) (first.getD (secondChild1 - 1) value)
        then secondChild1 - 1 else secondChild1
      adjustDown comp len value fuel secondChild2 secondChild2
        (first.set holeIndex (first.getD secondChild2 value))
    else (first, holeIndex, secondChild)

/-- The function `std::__adjust_heap(first, holeIndex, len, value, comp)`.
It is only called with `len ≥ 1`, where the truncated subtractions below
agree with the signed ones of the source. -/
def adjustHeap {α : Type} (comp : α → α → Bool) (first : List α)
    (holeIndex len : Nat) (value : α) : List α :=
  let topIndex := holeIndex
  let r := adjustDown comp len value len holeIndex holeIndex first
  let first1 := r.1
  let holeIndex1 := r.2.1
  let secondChild := r.2.2
  if len % 2 = 0 ∧ secondChild = (len - 2) / 2 then
    let secondChild1 := 2 * (secondChild + 1)
    pushHeap comp (first1.set holeIndex1 (first1.getD (secondChild1 - 1) value))
      (secondChild1 - 1) topIndex value
  else
    pushHeap comp first1 holeIndex1 topIndex value

/-- The call `priority_queue::push(x)`: `c.push_back(x)` followed by
`std::push_heap(c.begin(), c.end(), comp)`. -/
def pqPush {α : Type} (comp : α → α → Bool) (c : List α) (x : α) : List α :=
  pushHeap comp (c ++ [x]) c.length 0 x

/-- The call `priority_queue::top()`: `c.front()`, undefined on an empty
queue. -/
def pqTop {α : Type} (c : List α) : Option α := c.head?

/-- The call `priority_queue::pop()`: `std::pop_heap(c.begin(), c.end(), comp)`
(which, for more than one element, moves the first element to the last place
and re-establishes the heap on the rest through `__adjust_heap`) followed by
`c.pop_back()`; undefined on an empty queue. -/
def pqPop {α : Type} (comp : α → α → Bool) (c : List α) : Option (List α) :=
  match c with
  | [] => none
  | x :: rest =>
    if (x :: rest).length > 1 then
      let last := (x :: rest).length - 1
      let value := (x :: rest).getD last x
      some (adjustHeap comp ((x :: rest).set last x) 0 last value).dropLast
    else some (x :: rest).dropLast

/-! ## `buildTree` -/

/-- The first loop of `buildTree`: push one leaf per entry of the map, in
iteration order. -/
def pushLeaves : CharMap Int → List huffmanNode → List huffmanNode
  | [], huffmanTree => huffmanTree
  | i :: rest, huffmanTree =>
    pushLeaves rest (pqPush myFreqComp huffmanTree (LeafNode i.1 i.2))

/-- The merge loop of `buildTree` and the final `top()`: while the size is
not 1, pop two nodes, push the internal node over them. Each iteration
shrinks the queue by one, `fuel` bounds the iterations. -/
def mergeLoop : Nat → List huffmanNode → Option huffmanNode
  | 0, _ => none
  | fuel + 1, huffmanTree =>
    if huffmanTree.length ≠ 1 then
      match pqTop huffmanTree, pqPop myFreqComp huffmanTree with
      | some topOne, some q1 =>
        match pqTop q1, pqPop myFreqComp q1 with
        | some topSecond, some q2 =>
          mergeLoop fuel (pqPush myFreqComp q2 (mkInternal topOne topSecond))
        | _, _ => none
      | _, _ => none
    else pqTop huffmanTree

/-- The method `buildTree`. An empty map makes the loop call `top()` on an
empty queue (`none`). -/
def buildTree (freqMapping : CharMap Int) : Option huffmanNode :=
  let huffmanTree := pushLeaves freqMapping []
  mergeLoop huffmanTree.length huffmanTree

/-! ## `encodeFile` -/

/-- The variables of `encodeFile` that change while it runs: the code map
(the subscript may insert), the `bitset<8>` as a number below 256, the bit
counter, and the bytes written so far. -/
structure EncState where
  codeMapping : CharMap (List Bool)
  byteCombination : Nat
  cnt : Nat
  out : List Nat
  deriving DecidableEq, Repr

/-- The body of `for(auto i:prefixCode)`: shift the bit in, and write the byte
out once eight bits are there. Writing stores the low byte of `to_ulong()`. -/
def pushBit (s : EncState) (i : Bool) : EncState :=
  let byteCombination :=
    if i then ((s.byteCombination <<< 1) % 256) ||| 1
    else ((s.byteCombination <<< 1) % 256) ||| 0
  let cnt := s.cnt + 1
  if cnt = 8 then
    { s with byteCombination := 0, cnt := 0, out := s.out ++ [byteCombination % 256] }
  else
    { s with byteCombination := byteCombination, cnt := cnt }

/-- The body of the inner `while` loop of `encodeFile` for the character `c`:
fetch `codeMapping[c]` and push its bits in order. -/
def encodeSymbol (s : EncState) (c : Sym) : EncState :=
  let r := CharMap.subscript [] s.codeMapping c
  r.1.foldl pushBit { s with codeMapping := r.2 }

/-- The inner loop of `encodeFile` over the contents of `buffer` from `idx`
on; running off the end of the buffer is undefined behaviour (`none`). -/
def encodeChunk : List Sym → EncState → Option EncState
  | [], _ => none
  | c :: rest, s =>
    if c ≠ 0 then encodeChunk rest (encodeSymbol s c) else some s

/-- The outer loop of `encodeFile`, one buffer content per iteration. -/
def encodeChunks : List (List Sym) → EncState → Option EncState
  | [], s => some s
  | buffer :: more, s =>
    match encodeChunk buffer s with
    | none => none
    | some s1 => encodeChunks more s1

/-- The end of `encodeFile`: shift the pending bits to the top of the byte
and write it, whatever `cnt` is. -/
def flush (s : EncState) : EncState :=
  let byteCombination := (s.byteCombination <<< (8 - s.cnt)) % 256
  { s with byteCombination := byteCombination, out := s.out ++ [byteCombination % 256] }

/-- The method `encodeFile`: the bytes written to the output file. -/
def encodeFile (codeMapping : CharMap (List Bool)) (reads : List (List Sym)) :
    Option (List Nat) :=
  match encodeChunks reads
      { codeMapping := codeMapping, byteCombination := 0, cnt := 0, out := [] } with
  | none => none
  | some s => some (flush s).out

/-- The method `compression`: frequency table, tree, code table, encoding.
`reads` are the buffer contents seen by `buildFreqTable`, `reads2` those seen
by `encodeFile`, which reads the file again. -/
def compression (reads reads2 : List (List Sym)) : Option (List Nat) :=
  match buildFreqTable reads with
  | none => none
  | some freqMapping =>
    match buildTree freqMapping with
    | none => none
    | some root =>
      encodeFile (buildHuffmanCodes [] (some root) []) reads2

/-- The methods `compression` calls, in the order of its body; the call of
`buildTree` with the table it is passed. -/
inductive Call where
  | buildFreqTable : Call
  | buildTree (freqMapping : CharMap Int) : Call
  | buildHuffmanCodes : Call
  | encodeFile : Call
  deriving DecidableEq, Repr

/-- The method `compression` call by call: the calls it makes, in order, up to
its return or up to the call whose behaviour is undefined, and the bytes in
the output file when it returns. The body has no test between the calls, so
each call that returns is followed by the next one. Only `encodeFile` opens
and writes the output file. -/
def compressionRun (reads reads2 : List (List Sym)) : List Call × Option (List Nat) :=
  match buildFreqTable reads with
  | none => ([Call.buildFreqTable], none)
  | some freqMapping =>
    match buildTree freqMapping with
    | none => ([Call.buildFreqTable, Call.buildTree freqMapping], none)
    | some root =>
      ([Call.buildFreqTable, Call.buildTree freqMapping, Call.buildHuffmanCodes,
          Call.encodeFile],
        encodeFile (buildHuffmanCodes [] (some root) []) reads2)

/-! ## Vocabulary of the specification -/

/-- The part of a buffer before its first zero byte. -/
def beforeZero (buffer : List Sym) : List Sym :=
  buffer.takeWhile (fun c => c != 0)

/-- The symbol sequence a run processes: the parts before the terminator of the
successive buffer contents. -/
def processed (reads : List (List Sym)) : List Sym :=
  reads.flatMap beforeZero

/-- The values stored in a map, in iteration order. -/
def values {β : Type} (m : CharMap β) : List β := m.map Prod.snd

/-- The code `encodeFile` obtains from `codeMapping[c]`: the stored code, or
the value-initialised (empty) vector when there is no entry. -/
def codeOf (codeMapping : CharMap (List Bool)) (c : Sym) : List Bool :=
  (CharMap.find codeMapping c).getD []

/-- The concatenation of the codes of a symbol sequence, in order. -/
def concatCodes (codeMapping : CharMap (List Bool)) (syms : List Sym) : List Bool :=
  syms.flatMap (codeOf codeMapping)

/-- The quantity total_code_bits: the sum of the code lengths over a symbol
sequence. -/
def totalCodeBits (codeMapping : CharMap (List Bool)) (syms : List Sym) : Nat :=
  (syms.map (fun c => (codeOf codeMapping c).length)).sum

/-- The eight bits of a byte, most significant first. -/
def byteBits (b : Nat) : List Bool :=
  (List.range 8).map (fun i => Nat.testBit b (7 - i))

/-- A byte sequence read as a bit sequence, most significant bit first. -/
def bytesBits (out : List Nat) : List Bool :=
  out.flatMap byteBits

/-- The leaves of a tree from left to right, each with the path from the root
to it: `false` for a step to the left child, `true` for a step to the right
child, the step at the root first. -/
def leafPaths : huffmanNode → List (Sym × List Bool)
  | LeafNode c _ => [(c, [])]
  | InternalNode _ left right =>
    (leafPaths left).map (fun e => (e.1, false :: e.2)) ++
    (leafPaths right).map (fun e => (e.1, true :: e.2))

/-- The leaves of a tree from left to right, as (symbol, frequency) pairs. -/
def leaves : huffmanNode → List (Sym × Int)
  | LeafNode c f => [(c, f)]
  | InternalNode _ left right => leaves left ++ leaves right

/-- The symbols at the leaves of a tree, from left to right. -/
def leafSyms (t : huffmanNode) : List Sym := (leaves t).map Prod.fst

/-- The number of internal nodes of a tree. -/
def internalCount : huffmanNode → Nat
  | LeafNode _ _ => 0
  | InternalNode _ left right => internalCount left + internalCount right + 1

/-- The sum over the leaves of frequency times depth, the root of the tree
standing at depth `d`. -/
def costFrom : Nat → huffmanNode → Int
  | d, LeafNode _ f => f * d
  | d, InternalNode _ left right => costFrom (d + 1) left + costFrom (d + 1) right

/-- The weighted path length of a tree: the sum over its leaves of frequency
times depth. -/
def weightedPathLength (t : huffmanNode) : Int := costFrom 0 t

/-- The decoder the specification describes (the source has none): walk from
the current node, `false` to the left child and `true` to the right child;
on reaching a leaf emit its symbol and restart at the root. Bits left over in
the middle of a walk are dropped. -/
def decodeFrom (root : huffmanNode) : huffmanNode → List Bool → List Sym
  | _, [] => []
  | LeafNode _ _, _ :: _ => []
  | InternalNode _ left right, b :: bits =>
    match (if b then right else left) with
    | LeafNode c _ => c :: decodeFrom root root bits
    | InternalNode f l r => decodeFrom root (InternalNode f l r) bits

/-- Decoding a bit sequence against a tree, starting at the root. -/
def decode (root : huffmanNode) (bits : List Bool) : List Sym :=
  decodeFrom root root bits

/-- The number a bit sequence denotes, most significant bit first. -/
def bitsVal (bits : List Bool) : Nat :=
  bits.foldl (fun a b => 2 * a + (if b then 1 else 0)) 0

/-- The state of the encoder after the bit sequence `bits` has been pushed:
the bytes written and the pending bits together spell `bits`, fewer than eight
bits are pending, and they are the value of the bitset. -/
def EncInv (s : EncState) (bits : List Bool) : Prop :=
  ∃ pending : List Bool, pending.length = s.cnt ∧ s.cnt < 8 ∧
    s.byteCombination = bitsVal pending ∧ bytesBits s.out ++ pending = bits ∧
    ∀ b ∈ s.out, b < 256

/-- The frequency of the node at index `i` of a vector (0 beyond its end). -/
def frqAt (a : List huffmanNode) (i : Nat) : Int :=
  match a[i]? with
  | some x => x.frq
  | none => 0

/-- The first `len` entries of a vector are a heap for `myFreqComp`: no parent
compares before its child, that is, no parent has a greater frequency than its
child (the parent of index `j` is index `(j - 1) / 2`). -/
def IsHeap (a : List huffmanNode) (len : Nat) : Prop :=
  ∀ j, 0 < j → j < len → frqAt a ((j - 1) / 2) ≤ frqAt a j

/-- The first `len` entries are a heap once the entry at the hole `h` is left
out: the heap order holds between all other entries, and across the hole. -/
def HoleHeap (a : List huffmanNode) (len h : Nat) : Prop :=
  (∀ j, 0 < j → j < len → j ≠ h → (j - 1) / 2 ≠ h →
    frqAt a ((j - 1) / 2) ≤ frqAt a j) ∧
  (∀ j, 0 < j → j < len → (j - 1) / 2 = h → 0 < h →
    frqAt a ((h - 1) / 2) ≤ frqAt a j)

/-- The sum of the frequencies at the leaves of a tree. -/
def leafSum (t : huffmanNode) : Int := ((leaves t).map Prod.snd).sum

/-- The height of a tree. -/
def height : huffmanNode → Nat
  | LeafNode _ _ => 0
  | InternalNode _ left right => max (height left) (height right) + 1

/-- The leaves of a tree as pairs (frequency, depth), the root standing at
depth `d`. -/
def leafDepths : Nat → huffmanNode → Multiset (Int × Nat)
  | d, LeafNode _ f => {(f, d)}
  | d, InternalNode _ left right => leafDepths (d + 1) left + leafDepths (d + 1) right

/-- The weighted length of an assignment of depths to weights: the sum of
weight times depth. -/
def wcost (L : Multiset (Int × Nat)) : Int := (L.map (fun p => p.1 * (p.2 : Int))).sum

/-- The Kraft sum of the depths, scaled by `2 ^ D`. -/
def kraft (D : Nat) (L : Multiset (Int × Nat)) : Nat := (L.map (fun p => 2 ^ (D - p.2))).sum

/-- The depths are at most `D` and are those of the leaves of a binary tree in
which every internal node has two children: their Kraft sum is one. -/
def KraftAt (D : Nat) (L : Multiset (Int × Nat)) : Prop :=
  (∀ p ∈ L, p.2 ≤ D) ∧ kraft D L = 2 ^ D

/-- The body of the merge loop of `buildTree`, once: the two nodes removed
(`topOne`, `topSecond`), the queue after the two calls of `pop`, and the queue
after the push of the internal node over the two. -/
def mergeStep (huffmanTree : List huffmanNode) :
    Option (huffmanNode × huffmanNode × List huffmanNode × List huffmanNode) :=
  match pqTop huffmanTree, pqPop myFreqComp huffmanTree with
  | some topOne, some q1 =>
    match pqTop q1, pqPop myFreqComp q1 with
    | some topSecond, some q2 =>
      some (topOne, topSecond, q2, pqPush myFreqComp q2 (mkInternal topOne topSecond))
    | _, _ => none
  | _, _ => none

/-- The queues the merge loop of `buildTree` goes through on the table `m`:
the queue of the leaves, and the queue after an iteration from a queue whose
size is not 1. -/
inductive LoopState (m : CharMap Int) : List huffmanNode → Prop where
  | init : LoopState m (pushLeaves m [])
  | next (q : List huffmanNode) (x y : huffmanNode) (q2 q3 : List huffmanNode) :
      LoopState m q → q.length ≠ 1 → mergeStep q = some (x, y, q2, q3) → LoopState m q3

/-- Every internal node of the tree has a left child whose frequency is at
most the frequency of its right child. -/
def LeftLE : huffmanNode → Prop
  | LeafNode _ _ => True
  | InternalNode _ left right => left.frq ≤ right.frq ∧ LeftLE left ∧ LeftLE right

/-- Every internal node of the tree has the sum of the frequencies of its two
children as its frequency. -/
def SumOK : huffmanNode → Prop
  | LeafNode _ _ => True
  | InternalNode f left right => f = left.frq + right.frq ∧ SumOK left ∧ SumOK right

/-- The leaves of a tree from left to right, each as (symbol, frequency, path
from the root). -/
def leafRows : huffmanNode → List (Sym × Int × List Bool)
  | LeafNode c f => [(c, f, [])]
  | InternalNode _ left right =>
    (leafRows left).map (fun e => (e.1, e.2.1, false :: e.2.2)) ++
    (leafRows right).map (fun e => (e.1, e.2.1, true :: e.2.2))

/-! ## The map operations -/

theorem find_assign {β : Type} (m : CharMap β) (k k' : Sym) (v : β) :
    CharMap.find (CharMap.assign m k v) k' =
      if k' = k then some v else CharMap.find m k' := by
  induction m with
  | nil => simp [CharMap.assign, CharMap.find]
  | cons e rest ih =>
    obtain ⟨k0, v0⟩ := e
    by_cases h1 : k < k0
    · simp [CharMap.assign, CharMap.find, h1]
    · by_cases h2 : k = k0
      · subst h2
        simp only [CharMap.assign, CharMap.find, h1, if_false, if_true]
        by_cases h4 : k' = k <;> simp [h4]
      · simp only [CharMap.assign, CharMap.find, h1, h2, if_false, ih]
        by_cases h3 : k' = k0
        · have h4 : ¬ k' = k := fun h => h2 (h ▸ h3)
          subst h3
          simp [h4]
        · simp [h3]

theorem find_eq_none_iff {β : Type} (m : CharMap β) (k : Sym) :
    CharMap.find m k = none ↔ k ∉ CharMap.keys m := by
  induction m with
  | nil => simp [CharMap.find, CharMap.keys]
  | cons e rest ih =>
    obtain ⟨k0, v0⟩ := e
    by_cases h : k = k0
    · simp [CharMap.find, CharMap.keys, h]
    · simp only [CharMap.find, h, if_false, ih]
      simp [CharMap.keys, h]

theorem mem_keys_assign {β : Type} (m : CharMap β) (k k' : Sym) (v : β) :
    k' ∈ CharMap.keys (CharMap.assign m k v) ↔ k' = k ∨ k' ∈ CharMap.keys m := by
  have h1 := find_eq_none_iff (CharMap.assign m k v) k'
  have h2 := find_eq_none_iff m k'
  rw [find_assign] at h1
  by_cases hk : k' = k
  · simp only [hk, if_true, true_or, iff_true]
    by_contra hc
    have := h1.2 (hk ▸ hc)
    simp [hk] at this
  · simp only [hk, if_false, false_or] at h1 ⊢
    constructor
    · intro h; by_contra hc; exact (h1.1 (h2.2 hc)) h
    · intro h; by_contra hc; exact (h2.1 (h1.2 hc)) h

theorem wf_assign {β : Type} (m : CharMap β) (k : Sym) (v : β) (h : CharMap.WF m) :
    CharMap.WF (CharMap.assign m k v) := by
  induction m with
  | nil => simp [CharMap.assign, CharMap.WF]
  | cons e rest ih =>
    obtain ⟨k0, v0⟩ := e
    unfold CharMap.WF at h ih ⊢
    rw [List.pairwise_cons] at h
    by_cases h1 : k < k0
    · simp only [CharMap.assign, h1, if_true]
      refine List.pairwise_cons.2 ⟨?_, List.pairwise_cons.2 h⟩
      intro a ha
      rcases List.mem_cons.1 ha with rfl | ha
      · exact h1
      · exact lt_trans h1 (h.1 a ha)
    · by_cases h2 : k = k0
      · subst h2
        simp only [CharMap.assign, h1, if_false, if_true]
        exact List.pairwise_cons.2 ⟨fun a ha => h.1 a ha, h.2⟩
      · simp only [CharMap.assign, h1, h2, if_false]
        refine List.pairwise_cons.2 ⟨?_, ih h.2⟩
        intro a ha
        have hk : a.1 ∈ CharMap.keys (CharMap.assign rest k v) :=
          List.mem_map_of_mem _ ha
        rcases (mem_keys_assign rest k a.1 v).1 hk with hak | hak
        · rw [hak]; exact lt_of_le_of_ne (not_lt.1 h1) (Ne.symm h2)
        · obtain ⟨b, hb, hba⟩ := List.mem_map.1 hak
          rw [← hba]; exact h.1 b hb

theorem find_of_lt_head {β : Type} (k0 : Sym) (v0 : β) (rest : CharMap β) (k : Sym)
    (h : CharMap.WF ((k0, v0) :: rest)) (hk : k < k0) :
    CharMap.find ((k0, v0) :: rest) k = none := by
  rw [find_eq_none_iff]
  unfold CharMap.WF at h
  rw [List.pairwise_cons] at h
  simp only [CharMap.keys, List.map_cons, List.mem_cons, List.mem_map, not_or, not_exists,
    not_and]
  refine ⟨ne_of_lt hk, fun b hb hbk => ?_⟩
  have := h.1 b hb
  simp only at this
  rw [hbk] at this
  exact lt_asymm hk this

theorem sum_values_assign (m : CharMap Int) (k : Sym) (v : Int) (h : CharMap.WF m) :
    (values (CharMap.assign m k v)).sum =
      (values m).sum - (CharMap.find m k).getD 0 + v := by
  induction m with
  | nil => simp [CharMap.assign, CharMap.find, values]
  | cons e rest ih =>
    obtain ⟨k0, v0⟩ := e
    have hrest : CharMap.WF rest := (List.pairwise_cons.1 h).2
    by_cases h1 : k < k0
    · rw [find_of_lt_head k0 v0 rest k h h1]
      simp [CharMap.assign, h1, values]
      ring
    · by_cases h2 : k = k0
      · subst h2
        simp [CharMap.assign, CharMap.find, values]
        ring
      · have := ih hrest
        simp only [values] at this
        simp [CharMap.assign, CharMap.find, h1, h2, values, this]
        ring

theorem find_incr (m : CharMap Int) (c k : Sym) :
    CharMap.find (incr m c) k =
      if k = c then some ((CharMap.find m c).getD 0 + 1) else CharMap.find m k := by
  unfold incr CharMap.subscript
  cases hf : CharMap.find m c with
  | none =>
    simp only [find_assign]
    by_cases hk : k = c <;> simp [hk]
  | some v =>
    simp only [find_assign]
    by_cases hk : k = c <;> simp [hk]

theorem wf_incr (m : CharMap Int) (c : Sym) (h : CharMap.WF m) : CharMap.WF (incr m c) := by
  unfold incr CharMap.subscript
  cases hf : CharMap.find m c with
  | none => exact wf_assign _ _ _ (wf_assign _ _ _ h)
  | some v => exact wf_assign _ _ _ h

theorem sum_values_incr (m : CharMap Int) (c : Sym) (h : CharMap.WF m) :
    (values (incr m c)).sum = (values m).sum + 1 := by
  unfold incr CharMap.subscript
  cases hf : CharMap.find m c with
  | none =>
    simp only
    rw [sum_values_assign _ _ _ (wf_assign _ _ _ h), sum_values_assign _ _ _ h, find_assign, hf]
    simp
  | some v =>
    simp only
    rw [sum_values_assign _ _ _ h, hf]
    simp only [Option.getD_some]
    ring

/-! ## `buildFreqTable` counts the symbols before the terminator -/

theorem split_at_zero (buffer : List Sym) (h : (0 : Sym) ∈ buffer) :
    ∃ rest, buffer = beforeZero buffer ++ 0 :: rest := by
  induction buffer with
  | nil => simp at h
  | cons c more ih =>
    by_cases hc : c = 0
    · subst hc
      exact ⟨more, by simp [beforeZero]⟩
    · rcases List.mem_cons.1 h with h0 | h0
      · exact absurd h0.symm hc
      · obtain ⟨rest, hrest⟩ := ih h0
        refine ⟨rest, ?_⟩
        have : beforeZero (c :: more) = c :: beforeZero more := by
          simp [beforeZero, hc]
        rw [this, List.cons_append, ← hrest]

theorem beforeZero_ne_zero (buffer : List Sym) : ∀ c ∈ beforeZero buffer, c ≠ 0 := by
  intro c hc
  have := List.mem_takeWhile_imp hc
  simpa using this

theorem countChunk_eq (pre rest : List Sym) (m : CharMap Int) (hpre : ∀ c ∈ pre, c ≠ 0) :
    countChunk (pre ++ 0 :: rest) m = some (pre.foldl incr m) := by
  induction pre generalizing m with
  | nil => simp [countChunk]
  | cons c more ih =>
    have hc : c ≠ 0 := hpre c (List.mem_cons_self _ _)
    simp only [List.cons_append, countChunk, hc, ne_eq, not_false_eq_true, if_true,
      List.foldl_cons]
    exact ih _ (fun x hx => hpre x (List.mem_cons_of_mem _ hx))

theorem countChunks_eq (reads : List (List Sym)) (m : CharMap Int)
    (hz : ∀ b ∈ reads, (0 : Sym) ∈ b) :
    countChunks reads m = some ((processed reads).foldl incr m) := by
  induction reads generalizing m with
  | nil => simp [countChunks, processed]
  | cons b more ih =>
    obtain ⟨rest, hrest⟩ := split_at_zero b (hz b (List.mem_cons_self _ _))
    have h1 : countChunk b m = some ((beforeZero b).foldl incr m) := by
      conv_lhs => rw [hrest]
      exact countChunk_eq _ _ _ (beforeZero_ne_zero b)
    simp only [countChunks, h1]
    rw [ih _ (fun x hx => hz x (List.mem_cons_of_mem _ hx))]
    simp [processed, List.foldl_append]

theorem wf_foldl_incr (syms : List Sym) (m : CharMap Int) (h : CharMap.WF m) :
    CharMap.WF (syms.foldl incr m) := by
  induction syms generalizing m with
  | nil => exact h
  | cons c more ih => exact ih _ (wf_incr m c h)

theorem sum_values_foldl_incr (syms : List Sym) (m : CharMap Int) (h : CharMap.WF m) :
    (values (syms.foldl incr m)).sum = (values m).sum + syms.length := by
  induction syms generalizing m with
  | nil => simp
  | cons c more ih =>
    rw [List.foldl_cons, ih _ (wf_incr m c h), sum_values_incr m c h]
    simp only [List.length_cons, Nat.cast_add, Nat.cast_one]
    ring

theorem find_foldl_incr (syms : List Sym) (m : CharMap Int) (k : Sym) :
    CharMap.find (syms.foldl incr m) k =
      if k ∈ syms then some ((CharMap.find m k).getD 0 + (syms.count k : Int))
      else CharMap.find m k := by
  induction syms generalizing m with
  | nil => simp
  | cons c more ih =>
    rw [List.foldl_cons, ih, find_incr]
    by_cases hkc : k = c
    · subst hkc
      simp only [if_true, Option.getD_some, List.mem_cons, true_or, List.count_cons_self,
        Nat.cast_add, Nat.cast_one]
      by_cases hm : k ∈ more
      · simp only [hm, if_true]
        congr 1
        ring
      · simp only [hm, if_false, List.count_eq_zero_of_not_mem hm]
        simp
    · simp only [hkc, if_false, List.mem_cons, false_or]
      rw [List.count_cons_of_ne hkc]

/-- C9: for a buffer that holds a zero byte, `buildFreqTable` returns a table
(with ascending, distinct keys) that maps every symbol occurring before the
first zero byte to its number of occurrences there, has no entry for any other
symbol, and whose counts add up to the length of that part; a buffer with the
same part before its first zero byte gives the same table. -/
theorem buildFreqTable_counts (buffer : List Sym) (hz : (0 : Sym) ∈ buffer) :
    ∃ m, buildFreqTable [buffer] = some m ∧ CharMap.WF m ∧
      (∀ c ∈ beforeZero buffer,
        CharMap.find m c = some ((beforeZero buffer).count c : Int)) ∧
      (∀ c, c ∉ beforeZero buffer → CharMap.find m c = none) ∧
      (values m).sum = ((beforeZero buffer).length : Int) ∧
      (∀ buffer', (0 : Sym) ∈ buffer' → beforeZero buffer' = beforeZero buffer →
        buildFreqTable [buffer'] = some m) := by
  have key : ∀ b : List Sym, (0 : Sym) ∈ b →
      buildFreqTable [b] = some ((beforeZero b).foldl incr []) := by
    intro b hb
    unfold buildFreqTable
    rw [countChunks_eq [b] [] (by simpa using hb)]
    simp [processed]
  refine ⟨(beforeZero buffer).foldl incr [], key buffer hz, ?_, ?_, ?_, ?_, ?_⟩
  · exact wf_foldl_incr _ _ List.Pairwise.nil
  · intro c hc
    rw [find_foldl_incr]
    simp [hc, CharMap.find]
  · intro c hc
    rw [find_foldl_incr]
    simp [hc, CharMap.find]
  · rw [sum_values_foldl_incr _ _ List.Pairwise.nil]
    simp [values]
  · intro b hb hbz
    rw [key b hb, hbz]

theorem buildFreqTable_counts_witness :
    ∃ m, buildFreqTable [[97, 97, 98, 0, 99]] = some m ∧
      CharMap.find m 97 = some 2 ∧ CharMap.find m 99 = none ∧ (values m).sum = 3 := by
  obtain ⟨m, h1, _, h2, h3, h4, _⟩ :=
    buildFreqTable_counts [97, 97, 98, 0, 99] (by decide)
  refine ⟨m, h1, ?_, ?_, ?_⟩
  · have := h2 97 (by decide)
    rw [this]; decide
  · exact h3 99 (by decide)
  · rw [h4]; decide

/-! ## `buildHuffmanCodes` stores the root-to-leaf paths -/

theorem set_last_append_false (p : List Bool) :
    (p ++ [false]).set ((p ++ [false]).length - 1) true = p ++ [true] := by
  induction p with
  | nil => rfl
  | cons b rest ih =>
    have h : ((b :: rest) ++ [false]).length - 1 = ((rest ++ [false]).length - 1) + 1 := by
      simp
    rw [h]
    simp only [List.cons_append, List.set_cons_succ]
    rw [ih]

theorem buildHuffmanCodesNode_internal (p : List Bool) (f : Int) (l r : huffmanNode)
    (m : CharMap (List Bool)) :
    buildHuffmanCodesNode p (InternalNode f l r) m =
      buildHuffmanCodesNode (p ++ [true]) r (buildHuffmanCodesNode (p ++ [false]) l m) := by
  simp only [buildHuffmanCodesNode]
  rw [set_last_append_false]

theorem leafSyms_internal (f : Int) (l r : huffmanNode) :
    leafSyms (InternalNode f l r) = leafSyms l ++ leafSyms r := by
  simp [leafSyms, leaves]

theorem map_fst_leafPaths (t : huffmanNode) :
    (leafPaths t).map Prod.fst = leafSyms t := by
  induction t with
  | LeafNode c f => simp [leafPaths, leafSyms, leaves]
  | InternalNode f l r ihl ihr =>
    simp only [leafPaths, List.map_append, List.map_map, leafSyms_internal]
    rw [← ihl, ← ihr]
    rfl

theorem find_codes_not_leaf (t : huffmanNode) (p : List Bool) (m : CharMap (List Bool))
    (c : Sym) (hc : c ∉ leafSyms t) :
    CharMap.find (buildHuffmanCodesNode p t m) c = CharMap.find m c := by
  induction t generalizing p m with
  | LeafNode c0 f =>
    have : ¬ c = c0 := by simpa [leafSyms, leaves] using hc
    simp [buildHuffmanCodesNode, find_assign, this]
  | InternalNode f l r ihl ihr =>
    rw [leafSyms_internal, List.mem_append, not_or] at hc
    rw [buildHuffmanCodesNode_internal, ihr _ _ hc.2, ihl _ _ hc.1]

theorem find_codes_leaf (t : huffmanNode) (p : List Bool) (m : CharMap (List Bool))
    (hn : (leafSyms t).Nodup) (c : Sym) (q : List Bool) (hq : (c, q) ∈ leafPaths t) :
    CharMap.find (buildHuffmanCodesNode p t m) c = some (p ++ q) := by
  induction t generalizing p m q with
  | LeafNode c0 f =>
    simp only [leafPaths, List.mem_singleton, Prod.mk.injEq] at hq
    obtain ⟨rfl, rfl⟩ := hq
    simp [buildHuffmanCodesNode, find_assign]
  | InternalNode f l r ihl ihr =>
    rw [leafSyms_internal] at hn
    have hnl := (List.nodup_append.1 hn).1
    have hnr := (List.nodup_append.1 hn).2.1
    have hdis := (List.nodup_append.1 hn).2.2
    rw [buildHuffmanCodesNode_internal]
    simp only [leafPaths, List.mem_append, List.mem_map, Prod.mk.injEq] at hq
    rcases hq with ⟨e, he, hec, heq⟩ | ⟨e, he, hec, heq⟩
    · have hcl : c ∈ leafSyms l := by
        rw [← map_fst_leafPaths, ← hec]; exact List.mem_map_of_mem _ he
      have hcr : c ∉ leafSyms r := fun h => hdis hcl h
      rw [find_codes_not_leaf r _ _ c hcr, ihl _ _ hnl e.2 (by rw [← hec]; exact he), ← heq]
      simp
    · rw [ihr _ _ hnr e.2 (by rw [← hec]; exact he), ← heq]
      simp

/-- C6: on a tree whose leaves carry pairwise distinct symbols,
`buildHuffmanCodes` started with the empty code stores, for every leaf, the
path from the root to that leaf (`false` for left, `true` for right, the step
at the root first) under the leaf's symbol, and leaves the entries of all
other symbols as they were. -/
theorem buildHuffmanCodes_paths (t : huffmanNode) (m : CharMap (List Bool))
    (hn : (leafSyms t).Nodup) :
    (∀ e ∈ leafPaths t, CharMap.find (buildHuffmanCodes [] (some t) m) e.1 = some e.2) ∧
    (∀ c, c ∉ leafSyms t →
      CharMap.find (buildHuffmanCodes [] (some t) m) c = CharMap.find m c) := by
  constructor
  · intro e he
    have := find_codes_leaf t [] m hn e.1 e.2 he
    simpa [buildHuffmanCodes] using this
  · intro c hc
    exact find_codes_not_leaf t [] m c hc

theorem buildHuffmanCodes_paths_witness :
    CharMap.find (buildHuffmanCodes [] (some (InternalNode 5 (LeafNode 98 1)
      (InternalNode 4 (LeafNode 97 2) (LeafNode 99 2)))) []) 99 = some [true, true] :=
  (buildHuffmanCodes_paths (InternalNode 5 (LeafNode 98 1)
      (InternalNode 4 (LeafNode 97 2) (LeafNode 99 2))) [] (by decide)).1
    (99, [true, true]) (by decide)

/-! ## `encodeFile` packs the codes most significant bit first -/

theorem subscript_code (m : CharMap (List Bool)) (c : Sym) :
    (CharMap.subscript [] m c).1 = codeOf m c ∧
    ∀ k, codeOf (CharMap.subscript [] m c).2 k = codeOf m k := by
  unfold CharMap.subscript codeOf
  cases hf : CharMap.find m c with
  | some v => simp
  | none =>
    refine ⟨by simp, fun k => ?_⟩
    simp only [find_assign]
    by_cases hk : k = c
    · simp [hk, hf]
    · simp [hk]

theorem bitsVal_append (p : List Bool) (b : Bool) :
    bitsVal (p ++ [b]) = 2 * bitsVal p + (if b then 1 else 0) := by
  simp [bitsVal, List.foldl_append]

theorem bitsVal_lt (p : List Bool) : bitsVal p < 2 ^ p.length := by
  induction p using List.reverseRecOn with
  | nil => simp [bitsVal]
  | append_singleton p b ih =>
    rw [bitsVal_append, List.length_append, List.length_singleton, pow_succ]
    split <;> omega

theorem shift_or_bit : ∀ x < 128,
    ((x <<< 1) % 256) ||| 1 = 2 * x + 1 ∧ ((x <<< 1) % 256) ||| 0 = 2 * x := by
  decide

theorem byteBits_bitsVal_eight (b0 b1 b2 b3 b4 b5 b6 b7 : Bool) :
    byteBits (bitsVal [b0, b1, b2, b3, b4, b5, b6, b7] % 256) =
      [b0, b1, b2, b3, b4, b5, b6, b7] := by
  revert b0 b1 b2 b3 b4 b5 b6 b7
  decide

theorem byteBits_flush (p : List Bool) (hp : p.length < 8) :
    byteBits (((bitsVal p <<< (8 - p.length)) % 256) % 256) =
      p ++ List.replicate (8 - p.length) false := by
  rcases p with _ | ⟨b0, _ | ⟨b1, _ | ⟨b2, _ | ⟨b3, _ | ⟨b4, _ | ⟨b5, _ | ⟨b6, _ | ⟨b7, t⟩⟩⟩⟩⟩⟩⟩⟩
  · decide
  · revert b0; decide
  · revert b0 b1; decide
  · revert b0 b1 b2; decide
  · revert b0 b1 b2 b3; decide
  · revert b0 b1 b2 b3 b4; decide
  · revert b0 b1 b2 b3 b4 b5; decide
  · revert b0 b1 b2 b3 b4 b5 b6; decide
  · simp only [List.length_cons] at hp; omega

theorem length_byteBits (b : Nat) : (byteBits b).length = 8 := by
  simp [byteBits]

theorem bytesBits_append (o1 o2 : List Nat) :
    bytesBits (o1 ++ o2) = bytesBits o1 ++ bytesBits o2 := by
  simp [bytesBits]

theorem bytesBits_singleton (b : Nat) : bytesBits [b] = byteBits b := by
  simp [bytesBits]

theorem length_bytesBits (out : List Nat) : (bytesBits out).length = 8 * out.length := by
  induction out with
  | nil => simp [bytesBits]
  | cons b rest ih =>
    have : bytesBits (b :: rest) = byteBits b ++ bytesBits rest := by simp [bytesBits]
    rw [this, List.length_append, ih, length_byteBits, List.length_cons]
    ring

theorem pushBit_codeMapping (s : EncState) (b : Bool) :
    (pushBit s b).codeMapping = s.codeMapping := by
  unfold pushBit
  simp only
  split <;> rfl

theorem pushBit_inv (s : EncState) (bits : List Bool) (b : Bool) (h : EncInv s bits) :
    EncInv (pushBit s b) (bits ++ [b]) := by
  obtain ⟨pending, hlen, hcnt, hval, hbits, hout⟩ := h
  have hlt : bitsVal pending < 128 := by
    have h1 := bitsVal_lt pending
    have h2 : 2 ^ pending.length ≤ 2 ^ 7 :=
      Nat.pow_le_pow_right (by decide) (by omega)
    omega
  have hbc : (if b then ((s.byteCombination <<< 1) % 256) ||| 1
      else ((s.byteCombination <<< 1) % 256) ||| 0) = bitsVal (pending ++ [b]) := by
    rw [bitsVal_append, hval]
    cases b
    · simpa using (shift_or_bit _ hlt).2
    · simpa using (shift_or_bit _ hlt).1
  unfold pushBit
  simp only [hbc]
  by_cases h8 : s.cnt + 1 = 8
  · simp only [h8, if_true]
    refine ⟨[], rfl, Nat.succ_pos 7, by simp [bitsVal], ?_, ?_⟩
    · have hl : (pending ++ [b]).length = 8 := by simp [hlen, h8]
      have hb : byteBits (bitsVal (pending ++ [b]) % 256) = pending ++ [b] := by
        generalize pending ++ [b] = l at hl
        rcases l with _ | ⟨b0, _ | ⟨b1, _ | ⟨b2, _ | ⟨b3, _ | ⟨b4, _ | ⟨b5, _ | ⟨b6, _ |
          ⟨b7, _ | ⟨b8, t⟩⟩⟩⟩⟩⟩⟩⟩⟩ <;> simp at hl
        exact byteBits_bitsVal_eight _ _ _ _ _ _ _ _
      rw [bytesBits_append, bytesBits_singleton, hb, List.append_nil, ← hbits,
        List.append_assoc]
    · intro x hx
      rcases List.mem_append.1 hx with hx | hx
      · exact hout x hx
      · rw [List.mem_singleton] at hx
        rw [hx]
        exact Nat.mod_lt _ (by decide)
  · simp only [h8, if_false]
    have hc8 : s.cnt + 1 < 8 := by omega
    refine ⟨pending ++ [b], by simp [hlen], hc8, rfl, ?_, hout⟩
    rw [← hbits, List.append_assoc]

theorem foldl_pushBit_inv (code : List Bool) (s : EncState) (bits : List Bool)
    (h : EncInv s bits) :
    EncInv (code.foldl pushBit s) (bits ++ code) ∧
      (code.foldl pushBit s).codeMapping = s.codeMapping := by
  induction code generalizing s bits with
  | nil => simpa using h
  | cons b rest ih =>
    have := ih (pushBit s b) (bits ++ [b]) (pushBit_inv s bits b h)
    rw [List.foldl_cons]
    refine ⟨by simpa using this.1, ?_⟩
    rw [this.2, pushBit_codeMapping]

theorem encodeSymbol_inv (s : EncState) (bits : List Bool) (c : Sym) (h : EncInv s bits) :
    EncInv (encodeSymbol s c) (bits ++ codeOf s.codeMapping c) ∧
      ∀ k, codeOf (encodeSymbol s c).codeMapping k = codeOf s.codeMapping k := by
  have hs := subscript_code s.codeMapping c
  have h0 : EncInv { s with codeMapping := (CharMap.subscript [] s.codeMapping c).2 } bits := h
  have := foldl_pushBit_inv (CharMap.subscript [] s.codeMapping c).1 _ bits h0
  unfold encodeSymbol
  simp only
  refine ⟨by rw [← hs.1]; exact this.1, fun k => ?_⟩
  rw [this.2]
  exact hs.2 k

theorem foldl_encodeSymbol_inv (syms : List Sym) (s : EncState) (bits : List Bool)
    (h : EncInv s bits) :
    EncInv (syms.foldl encodeSymbol s) (bits ++ concatCodes s.codeMapping syms) ∧
      ∀ k, codeOf (syms.foldl encodeSymbol s).codeMapping k = codeOf s.codeMapping k := by
  induction syms generalizing s bits with
  | nil => simpa [concatCodes] using h
  | cons c rest ih =>
    have h1 := encodeSymbol_inv s bits c h
    have h2 := ih (encodeSymbol s c) _ h1.1
    have hcc : concatCodes (encodeSymbol s c).codeMapping rest =
        concatCodes s.codeMapping rest := by
      unfold concatCodes
      congr 1
      funext k
      exact h1.2 k
    rw [List.foldl_cons]
    refine ⟨?_, fun k => by rw [h2.2 k, h1.2 k]⟩
    have := h2.1
    rw [hcc, List.append_assoc] at this
    simpa [concatCodes] using this

theorem encodeChunk_eq (pre rest : List Sym) (s : EncState) (hpre : ∀ c ∈ pre, c ≠ 0) :
    encodeChunk (pre ++ 0 :: rest) s = some (pre.foldl encodeSymbol s) := by
  induction pre generalizing s with
  | nil => simp [encodeChunk]
  | cons c more ih =>
    have hc : c ≠ 0 := hpre c (List.mem_cons_self _ _)
    simp only [List.cons_append, encodeChunk, hc, ne_eq, not_false_eq_true, if_true,
      List.foldl_cons]
    exact ih _ (fun x hx => hpre x (List.mem_cons_of_mem _ hx))

theorem encodeChunks_eq (reads : List (List Sym)) (s : EncState)
    (hz : ∀ b ∈ reads, (0 : Sym) ∈ b) :
    encodeChunks reads s = some ((processed reads).foldl encodeSymbol s) := by
  induction reads generalizing s with
  | nil => simp [encodeChunks, processed]
  | cons b more ih =>
    obtain ⟨rest, hrest⟩ := split_at_zero b (hz b (List.mem_cons_self _ _))
    have h1 : encodeChunk b s = some ((beforeZero b).foldl encodeSymbol s) := by
      conv_lhs => rw [hrest]
      exact encodeChunk_eq _ _ _ (beforeZero_ne_zero b)
    simp only [encodeChunks, h1]
    rw [ih _ (fun x hx => hz x (List.mem_cons_of_mem _ hx))]
    simp [processed, List.foldl_append]

theorem length_concatCodes (m : CharMap (List Bool)) (syms : List Sym) :
    (concatCodes m syms).length = totalCodeBits m syms := by
  induction syms with
  | nil => simp [concatCodes, totalCodeBits]
  | cons c rest ih =>
    simp only [concatCodes, totalCodeBits, List.flatMap_cons, List.length_append,
      List.map_cons, List.sum_cons] at ih ⊢
    rw [ih]

theorem flush_inv (s : EncState) (bits : List Bool) (h : EncInv s bits) :
    bytesBits (flush s).out = bits ++ List.replicate (8 - bits.length % 8) false ∧
      (flush s).out.length = bits.length / 8 + 1 ∧ ∀ b ∈ (flush s).out, b < 256 := by
  obtain ⟨pending, hlen, hcnt, hval, hbits, hout⟩ := h
  have hl : bits.length = 8 * s.out.length + s.cnt := by
    rw [← hbits, List.length_append, length_bytesBits, hlen]
  have hmod : bits.length % 8 = s.cnt := by omega
  have hdiv : bits.length / 8 = s.out.length := by omega
  unfold flush
  simp only
  refine ⟨?_, by simp [hdiv], ?_⟩
  · rw [bytesBits_append, bytesBits_singleton, hval, ← hlen,
      byteBits_flush pending (by omega), hmod, ← hbits, ← hlen, List.append_assoc]
  · intro x hx
    rcases List.mem_append.1 hx with hx | hx
    · exact hout x hx
    · rw [List.mem_singleton] at hx
      rw [hx]
      exact Nat.mod_lt _ (by decide)

theorem encodeFile_eq (codeMapping : CharMap (List Bool)) (reads : List (List Sym))
    (hz : ∀ b ∈ reads, (0 : Sym) ∈ b) :
    ∃ out, encodeFile codeMapping reads = some out ∧
      bytesBits out = concatCodes codeMapping (processed reads) ++
        List.replicate (8 - totalCodeBits codeMapping (processed reads) % 8) false ∧
      out.length = totalCodeBits codeMapping (processed reads) / 8 + 1 ∧
      ∀ b ∈ out, b < 256 := by
  have h0 : EncInv { codeMapping := codeMapping, byteCombination := 0, cnt := 0, out := [] }
      [] := ⟨[], rfl, Nat.succ_pos 7, rfl, rfl, by simp⟩
  have h1 := (foldl_encodeSymbol_inv (processed reads) _ [] h0).1
  have h2 := flush_inv _ _ h1
  simp only [List.nil_append, length_concatCodes] at h2
  refine ⟨_, ?_, h2⟩
  unfold encodeFile
  rw [encodeChunks_eq reads _ hz]

theorem bytesBits_cons (b : Nat) (rest : List Nat) :
    bytesBits (b :: rest) = byteBits b ++ bytesBits rest := by
  simp [bytesBits]

theorem bytesBits_slice (out : List Nat) (i : Nat) (h : i < out.length) :
    ((bytesBits out).drop (8 * i)).take 8 = byteBits (out.getD i 0) := by
  induction out generalizing i with
  | nil => simp at h
  | cons b rest ih =>
    rw [bytesBits_cons]
    cases i with
    | zero =>
      simp only [Nat.mul_zero, List.drop_zero, List.getD_cons_zero]
      exact List.take_left' (length_byteBits b)
    | succ j =>
      have hj : j < rest.length := by simpa using h
      have h8 : 8 * (j + 1) = (byteBits b).length + 8 * j := by
        rw [length_byteBits]; ring
      rw [h8, List.drop_append, List.getD_cons_succ]
      exact ih j hj

/-- C4: when every buffer read holds a zero byte, `encodeFile` writes bytes
that, read as bits most significant bit first, are the concatenation of the
codes of the processed symbols in input order followed only by zero bits
(between one and eight of them); every byte but the last holds eight
consecutive bits of that concatenation. The code of a symbol is what
`codeMapping[c]` yields, the stored entry for every symbol the table covers. -/
theorem encodeFile_bit_stream (codeMapping : CharMap (List Bool))
    (reads : List (List Sym)) (hz : ∀ b ∈ reads, (0 : Sym) ∈ b) :
    ∃ out, encodeFile codeMapping reads = some out ∧
      bytesBits out = concatCodes codeMapping (processed reads) ++
        List.replicate (8 - totalCodeBits codeMapping (processed reads) % 8) false ∧
      (∀ i, i + 1 < out.length →
        byteBits (out.getD i 0) =
          ((concatCodes codeMapping (processed reads)).drop (8 * i)).take 8) ∧
      ∀ b ∈ out, b < 256 := by
  obtain ⟨out, h1, h2, h3, h4⟩ := encodeFile_eq codeMapping reads hz
  refine ⟨out, h1, h2, ?_, h4⟩
  intro i hi
  have hlen := length_concatCodes codeMapping (processed reads)
  have hle : 8 * i + 8 ≤ (concatCodes codeMapping (processed reads)).length := by
    rw [hlen]; omega
  rw [← bytesBits_slice out i (by omega), h2,
    List.drop_append_of_le_length (by omega),
    List.take_append_of_le_length (by rw [List.length_drop]; omega)]

theorem encodeFile_bit_stream_witness :
    ∃ out, encodeFile [(97, [false]), (98, [true, false]), (99, [true, true])]
        [[97, 98, 99, 97, 98, 99, 0, 7]] = some out ∧
      bytesBits out = [false, true, false, true, true, false, true, false, true, true] ++
        List.replicate 6 false := by
  obtain ⟨out, h1, h2, _, _⟩ :=
    encodeFile_bit_stream [(97, [false]), (98, [true, false]), (99, [true, true])]
      [[97, 98, 99, 97, 98, 99, 0, 7]] (by decide)
  exact ⟨out, h1, h2⟩

/-- C5, as the code has it: when every buffer read holds a zero byte,
`encodeFile` writes `total_code_bits / 8 + 1` bytes (integer division), which
is `ceil(total_code_bits / 8)` exactly when `total_code_bits` is not a
multiple of 8. -/
theorem encodeFile_length (codeMapping : CharMap (List Bool))
    (reads : List (List Sym)) (hz : ∀ b ∈ reads, (0 : Sym) ∈ b) :
    ∃ out, encodeFile codeMapping reads = some out ∧
      out.length = totalCodeBits codeMapping (processed reads) / 8 + 1 ∧
      (totalCodeBits codeMapping (processed reads) % 8 ≠ 0 →
        out.length = (totalCodeBits codeMapping (processed reads) + 7) / 8) := by
  obtain ⟨out, h1, _, h3, _⟩ := encodeFile_eq codeMapping reads hz
  exact ⟨out, h1, h3, fun h => by omega⟩

theorem encodeFile_length_witness :
    ∃ out, encodeFile [(97, [false]), (98, [true])] [[97, 98, 97, 0]] = some out ∧
      out.length = 1 := by
  obtain ⟨out, h1, h2, _⟩ :=
    encodeFile_length [(97, [false]), (98, [true])] [[97, 98, 97, 0]] (by decide)
  exact ⟨out, h1, by rw [h2]; decide⟩

/-- C5 fails as stated: with the codes `a ↦ 0`, `b ↦ 1` and the input
`abababab` the total is 8 code bits, `ceil(8 / 8) = 1`, and `encodeFile`
writes the two bytes `0x55 0x00`. -/
theorem encodeFile_length_not_ceil :
    encodeFile [(97, [false]), (98, [true])] [[97, 98, 97, 98, 97, 98, 97, 98, 0]] =
        some [85, 0] ∧
      totalCodeBits [(97, [false]), (98, [true])]
        (processed [[97, 98, 97, 98, 97, 98, 97, 98, 0]]) = 8 ∧
      ([85, 0] : List Nat).length ≠ (8 + 7) / 8 := by
  decide

/-! ## The heap algorithms keep the contents of the vector -/

theorem getD_set {α : Type} (a : List α) (i j : Nat) (x d : α) :
    (a.set i x).getD j d = if i = j ∧ i < a.length then x else a.getD j d := by
  simp only [List.getD_eq_getElem?_getD, List.getElem?_set]
  by_cases h : i = j
  · subst h
    by_cases h2 : i < a.length
    · simp [h2]
    · simp [h2, List.getElem?_eq_none (not_lt.1 h2)]
  · simp [h]

theorem perm_set_eraseIdx {α : Type} (a : List α) (i : Nat) (x : α) (h : i < a.length) :
    List.Perm (a.set i x) (x :: a.eraseIdx i) := by
  induction a generalizing i with
  | nil => simp at h
  | cons y rest ih =>
    cases i with
    | zero => simp
    | succ j =>
      have hj : j < rest.length := by simpa using h
      simp only [List.set_cons_succ, List.eraseIdx_cons_succ]
      exact ((ih j hj).cons y).trans (List.Perm.swap x y _)

theorem perm_getD_eraseIdx {α : Type} (a : List α) (i : Nat) (d : α) (h : i < a.length) :
    List.Perm a (a.getD i d :: a.eraseIdx i) := by
  induction a generalizing i with
  | nil => simp at h
  | cons y rest ih =>
    cases i with
    | zero => simp
    | succ j =>
      have hj : j < rest.length := by simpa using h
      simp only [List.getD_cons_succ, List.eraseIdx_cons_succ]
      exact ((ih j hj).cons y).trans (List.Perm.swap _ y _)

theorem eraseIdx_set_perm {α : Type} (a : List α) (h p : Nat) (d : α)
    (hh : h < a.length) (hp : p < a.length) (hne : p ≠ h) :
    List.Perm ((a.set h (a.getD p d)).eraseIdx p) (a.eraseIdx h) := by
  have h1 := perm_set_eraseIdx a h (a.getD p d) hh
  have h2 := perm_getD_eraseIdx (a.set h (a.getD p d)) p d (by simpa using hp)
  rw [getD_set] at h2
  have hne' : ¬ (h = p ∧ h < a.length) := fun hc => hne hc.1.symm
  rw [if_neg hne'] at h2
  exact (h2.symm.trans h1).cons_inv

/-- What `std::__push_heap` leaves behind: the same length, the contents of
the vector with `value` in place of the hole, nothing changed above the
hole. -/
theorem pushHeapAux_frame {α : Type} (comp : α → α → Bool) (topIndex : Nat) (value : α)
    (fuel hole : Nat) (a : List α) (hh : hole < a.length) :
    (pushHeapAux comp topIndex value fuel hole a).length = a.length ∧
    List.Perm (pushHeapAux comp topIndex value fuel hole a) (value :: a.eraseIdx hole) ∧
    ∀ j d, hole < j → (pushHeapAux comp topIndex value fuel hole a).getD j d = a.getD j d := by
  induction fuel generalizing hole a with
  | zero =>
    refine ⟨by simp [pushHeapAux], perm_set_eraseIdx a hole value hh, fun j d hj => ?_⟩
    simp only [pushHeapAux]
    rw [getD_set, if_neg (by omega)]
  | succ n ih =>
    by_cases hc : (decide (hole > topIndex) && comp (a.getD ((hole - 1) / 2) value) value) = true
    · have hpos : hole > topIndex := by
        simp only [Bool.and_eq_true, decide_eq_true_eq] at hc
        exact hc.1
      have hp : (hole - 1) / 2 < hole := by omega
      have hlen : (a.set hole (a.getD ((hole - 1) / 2) value)).length = a.length := by simp
      have := ih ((hole - 1) / 2) (a.set hole (a.getD ((hole - 1) / 2) value))
        (by rw [hlen]; omega)
      simp only [pushHeapAux, hc, if_true]
      refine ⟨by rw [this.1, hlen], ?_, fun j d hj => ?_⟩
      · exact this.2.1.trans
          ((eraseIdx_set_perm a hole ((hole - 1) / 2) value hh (by omega) (by omega)).cons _)
      · rw [this.2.2 j d (by omega), getD_set, if_neg (by omega)]
    · simp only [pushHeapAux, hc]
      refine ⟨by simp, perm_set_eraseIdx a hole value hh, fun j d hj => ?_⟩
      simp only [Bool.false_eq_true, if_false]
      rw [getD_set, if_neg (by omega)]

/-- What the descent of `std::__adjust_heap` leaves behind: the hole stays
below `len`, it and `secondChild` agree, the contents without the hole are
kept, and nothing is changed from `len` on. -/
theorem adjustDown_frame {α : Type} (comp : α → α → Bool) (len : Nat) (value : α)
    (fuel hole : Nat) (a : List α) (hh : hole < len) (hl : len ≤ a.length) :
    (adjustDown comp len value fuel hole hole a).1.length = a.length ∧
    (adjustDown comp len value fuel hole hole a).2.1 < len ∧
    (adjustDown comp len value fuel hole hole a).2.2 =
      (adjustDown comp len value fuel hole hole a).2.1 ∧
    hole ≤ (adjustDown comp len value fuel hole hole a).2.1 ∧
    List.Perm ((adjustDown comp len value fuel hole hole a).1.eraseIdx
      (adjustDown comp len value fuel hole hole a).2.1) (a.eraseIdx hole) ∧
    ∀ j d, len ≤ j → (adjustDown comp len value fuel hole hole a).1.getD j d = a.getD j d := by
  induction fuel generalizing hole a with
  | zero => simp [adjustDown, hh]
  | succ n ih =>
    by_cases hc : hole < (len - 1) / 2
    · simp only [adjustDown, hc, if_true]
      generalize hs : (if comp (a.getD (2 * (hole + 1)) value)
        (a.getD (2 * (hole + 1) - 1) value) = true then 2 * (hole + 1) - 1
        else 2 * (hole + 1)) = s
      have hs1 : hole < s ∧ s < len := by
        rw [← hs]; split <;> omega
      have hlen : (a.set hole (a.getD s value)).length = a.length := by simp
      have := ih s (a.set hole (a.getD s value)) hs1.2 (by rw [hlen]; exact hl)
      refine ⟨by rw [this.1, hlen], this.2.1, this.2.2.1, by omega, ?_, fun j d hj => ?_⟩
      · exact this.2.2.2.2.1.trans
          (eraseIdx_set_perm a hole s value (by omega) (by omega) (by omega))
      · rw [this.2.2.2.2.2 j d hj, getD_set, if_neg (by omega)]
    · simp [adjustDown, hc, hh]

/-- What `std::__adjust_heap` leaves behind: the same length, the contents
with `value` in place of the hole, nothing changed from `len` on. -/
theorem adjustHeap_frame {α : Type} (comp : α → α → Bool) (a : List α)
    (hole len : Nat) (value : α) (hh : hole < len) (hl : len ≤ a.length) :
    (adjustHeap comp a hole len value).length = a.length ∧
    List.Perm (adjustHeap comp a hole len value) (value :: a.eraseIdx hole) ∧
    ∀ j d, len ≤ j → (adjustHeap comp a hole len value).getD j d = a.getD j d := by
  obtain ⟨h1, h2, h3, h4, h5, h6⟩ := adjustDown_frame comp len value len hole a hh hl
  unfold adjustHeap
  simp only
  generalize adjustDown comp len value len hole hole a = r at h1 h2 h3 h4 h5 h6
  obtain ⟨a1, hole0, hole1⟩ := r
  simp only at h1 h2 h3 h4 h5 h6
  subst h3
  by_cases hc : len % 2 = 0 ∧ hole1 = (len - 2) / 2
  · simp only [hc, and_self, if_true]
    have hlen2 : 2 ≤ len := by omega
    have hidx : 2 * ((len - 2) / 2 + 1) - 1 = len - 1 := by omega
    have hh1 : hole1 < a1.length := by omega
    have hlen : (a1.set hole1 (a1.getD (len - 1) value)).length = a1.length := by simp
    have := pushHeapAux_frame comp hole value (len - 1) (len - 1)
      (a1.set hole1 (a1.getD (len - 1) value)) (by rw [hlen]; omega)
    rw [← hc.2, show 2 * (hole1 + 1) - 1 = len - 1 by omega]
    unfold pushHeap
    refine ⟨by rw [this.1, hlen, h1], ?_, fun j d hj => ?_⟩
    · exact this.2.1.trans
        (((eraseIdx_set_perm a1 hole1 (len - 1) value hh1 (by omega) (by omega)).trans
          h5).cons _)
    · rw [this.2.2 j d (by omega), getD_set, if_neg (by omega), h6 j d hj]
  · simp only [hc, if_false]
    have := pushHeapAux_frame comp hole value hole1 hole1 a1 (by omega)
    unfold pushHeap
    refine ⟨by rw [this.1, h1], this.2.1.trans (h5.cons _), fun j d hj => ?_⟩
    rw [this.2.2 j d (by omega), h6 j d hj]

/-! ## `priority_queue::push` and `pop` keep the contents -/

theorem pqPush_perm {α : Type} (comp : α → α → Bool) (c : List α) (x : α) :
    List.Perm (pqPush comp c x) (x :: c) := by
  have h := (pushHeapAux_frame comp 0 x c.length c.length (c ++ [x]) (by simp)).2.1
  have he : (c ++ [x]).eraseIdx c.length = c := by
    rw [List.eraseIdx_append_of_length_le (Nat.le_refl _)]
    simp
  rw [he] at h
  exact h

theorem pqPop_perm {α : Type} (comp : α → α → Bool) (x : α) (rest : List α) :
    ∃ q, pqPop comp (x :: rest) = some q ∧ List.Perm q rest := by
  by_cases h1 : (x :: rest).length > 1
  · simp only [pqPop, h1, if_true]
    refine ⟨_, rfl, ?_⟩
    have hr : rest ≠ [] := by
      intro h; simp [h] at h1
    have hlast : (x :: rest).length - 1 = rest.length := by simp
    rw [hlast]
    obtain ⟨hl, hp, hf⟩ := adjustHeap_frame comp ((x :: rest).set rest.length x) 0
      rest.length ((x :: rest).getD rest.length x)
      (List.length_pos.2 hr) (by simp)
    generalize adjustHeap comp ((x :: rest).set rest.length x) 0
      rest.length ((x :: rest).getD rest.length x) = R at hl hp hf
    have hRlen : R.length = rest.length + 1 := by simpa using hl
    have hRne : R ≠ [] := by
      intro h; simp [h] at hRlen
    have hRlast : R.getLast hRne = x := by
      rw [List.getLast_eq_getElem]
      have := hf rest.length x (Nat.le_refl _)
      rw [getD_set, if_pos ⟨rfl, by simp⟩] at this
      rw [← this, List.getD_eq_getElem?_getD, List.getElem?_eq_getElem (by omega)]
      simp [hRlen]
    have hR : List.Perm R (x :: R.dropLast) := by
      conv_lhs => rw [← List.dropLast_append_getLast hRne, hRlast]
      exact List.perm_append_singleton _ _
    obtain ⟨k, hk⟩ : ∃ k, rest.length = k + 1 :=
      ⟨rest.length - 1, by have := List.length_pos.2 hr; omega⟩
    have hset : ((x :: rest).set rest.length x).eraseIdx 0 = rest.set k x := by
      rw [hk]; simp
    have hval : (x :: rest).getD rest.length x = rest.getD k x := by
      rw [hk]; simp
    rw [hset, hval] at hp
    have h3 : List.Perm (rest.getD k x :: rest.set k x) (x :: rest) :=
      ((perm_set_eraseIdx rest k x (by omega)).cons _).trans
        ((List.Perm.swap _ _ _).trans ((perm_getD_eraseIdx rest k x (by omega)).symm.cons _))
    exact (hR.symm.trans (hp.trans h3)).cons_inv
  · have hr : rest = [] := by
      cases rest with
      | nil => rfl
      | cons y t => simp at h1
    subst hr
    exact ⟨[], by simp [pqPop], List.Perm.refl _⟩

theorem pushLeaves_perm (m : CharMap Int) (q : List huffmanNode) :
    List.Perm (pushLeaves m q) (m.map (fun i => LeafNode i.1 i.2) ++ q) := by
  induction m generalizing q with
  | nil => simp [pushLeaves]
  | cons i rest ih =>
    simp only [pushLeaves, List.map_cons, List.cons_append]
    refine (ih _).trans ?_
    exact ((pqPush_perm myFreqComp q (LeafNode i.1 i.2)).append_left _).trans
      List.perm_middle

/-- One iteration of the merge loop of `buildTree` on a queue of at least two
nodes: two nodes are taken out and their parent is put in. -/
theorem mergeLoop_step (fuel : Nat) (q : List huffmanNode) (h2 : 2 ≤ q.length) :
    ∃ x y q2 q3, List.Perm q (x :: y :: q2) ∧ List.Perm q3 (mkInternal x y :: q2) ∧
      mergeLoop (fuel + 1) q = mergeLoop fuel q3 := by
  obtain ⟨x, rest, rfl⟩ : ∃ x rest, q = x :: rest := by
    cases q with
    | nil => simp at h2
    | cons x rest => exact ⟨x, rest, rfl⟩
  obtain ⟨q1, hq1, hp1⟩ := pqPop_perm myFreqComp x rest
  obtain ⟨y, rest1, rfl⟩ : ∃ y rest1, q1 = y :: rest1 := by
    cases q1 with
    | nil =>
      have := hp1.length_eq
      simp at this h2
      omega
    | cons y rest1 => exact ⟨y, rest1, rfl⟩
  obtain ⟨q2, hq2, hp2⟩ := pqPop_perm myFreqComp y rest1
  refine ⟨x, y, q2, pqPush myFreqComp q2 (mkInternal x y), ?_, pqPush_perm _ _ _, ?_⟩
  · exact (hp1.symm.trans (hp2.symm.cons y)).cons x
  · have hne : (x :: rest).length ≠ 1 := by omega
    simp only [mergeLoop, hne, ne_eq, not_false_eq_true, if_true, pqTop, List.head?_cons,
      hq1, hq2]

theorem leaves_mkInternal (x y : huffmanNode) :
    leaves (mkInternal x y) = leaves x ++ leaves y := by
  simp [mkInternal, leaves]

/-- The merge loop of `buildTree` returns a tree when the queue is not empty
and the fuel is at least its size; the leaves of the tree are the leaves of
the nodes of the queue. -/
theorem mergeLoop_leaves (fuel : Nat) (q : List huffmanNode) (hne : q ≠ [])
    (hf : q.length ≤ fuel) :
    ∃ t, mergeLoop fuel q = some t ∧ List.Perm (leaves t) (q.flatMap leaves) := by
  induction fuel generalizing q with
  | zero =>
    have := List.length_pos.2 hne
    omega
  | succ n ih =>
    by_cases h1 : q.length = 1
    · obtain ⟨x, rfl⟩ : ∃ x, q = [x] := List.length_eq_one.1 h1
      exact ⟨x, by simp [mergeLoop, pqTop], by simp⟩
    · have h2 : 2 ≤ q.length := by
        have := List.length_pos.2 hne
        omega
      obtain ⟨x, y, q2, q3, hp, hp3, heq⟩ := mergeLoop_step n q h2
      have hl3 : q3.length + 1 = q.length := by
        have := hp.length_eq
        have := hp3.length_eq
        simp at *
        omega
      have hne3 : q3 ≠ [] := by
        intro h
        have := hp3.length_eq
        simp [h] at this
      obtain ⟨t, ht, hpt⟩ := ih q3 hne3 (by omega)
      refine ⟨t, by rw [heq, ht], hpt.trans ?_⟩
      refine (hp3.flatMap_right leaves).trans (List.Perm.trans ?_ (hp.flatMap_right leaves).symm)
      simp [leaves_mkInternal]

/-- On a non-empty table `buildTree` returns a tree, and its leaves are the
entries of the table, each once. -/
theorem buildTree_leaves (m : CharMap Int) (hne : m ≠ []) :
    ∃ t, buildTree m = some t ∧ List.Perm (leaves t) m := by
  have hp := pushLeaves_perm m []
  have hne' : pushLeaves m [] ≠ [] := by
    intro h
    have := hp.length_eq
    rw [h] at this
    simp at this
    exact hne (List.length_eq_zero.1 this.symm)
  obtain ⟨t, ht, hpt⟩ := mergeLoop_leaves _ (pushLeaves m []) hne' (Nat.le_refl _)
  refine ⟨t, ht, hpt.trans ((hp.flatMap_right leaves).trans ?_)⟩
  rw [List.append_nil]
  have : ∀ l : CharMap Int, (l.map (fun i => LeafNode i.1 i.2)).flatMap leaves = l := by
    intro l
    induction l with
    | nil => rfl
    | cons i rest ih => simp [leaves, ih]
  rw [this]

/-! ## Shape of the tree and of the code table -/

theorem length_leaves (t : huffmanNode) : (leaves t).length = internalCount t + 1 := by
  induction t with
  | LeafNode c f => simp [leaves, internalCount]
  | InternalNode f l r ihl ihr =>
    simp only [leaves, internalCount, List.length_append, ihl, ihr]
    omega

theorem leafPaths_ne_nil_of_internal (f : Int) (l r : huffmanNode) :
    ∀ e ∈ leafPaths (InternalNode f l r), e.2 ≠ [] := by
  intro e he
  simp only [leafPaths, List.mem_append, List.mem_map] at he
  rcases he with ⟨e', _, rfl⟩ | ⟨e', _, rfl⟩ <;> simp

theorem find_codes_some (t : huffmanNode) (p : List Bool) (m : CharMap (List Bool))
    (c : Sym) (q : List Bool) (h : CharMap.find (buildHuffmanCodesNode p t m) c = some q) :
    (∃ e ∈ leafPaths t, e.1 = c ∧ q = p ++ e.2) ∨ CharMap.find m c = some q := by
  induction t generalizing p m with
  | LeafNode c0 f =>
    simp only [buildHuffmanCodesNode, find_assign] at h
    by_cases hc : c = c0
    · left
      simp only [hc, if_true, Option.some.injEq] at h
      exact ⟨(c0, []), by simp [leafPaths], hc.symm, by simp [h]⟩
    · right
      simpa [hc] using h
  | InternalNode f l r ihl ihr =>
    rw [buildHuffmanCodesNode_internal] at h
    rcases ihr _ _ h with ⟨e, he, hec, heq⟩ | h'
    · left
      refine ⟨(e.1, true :: e.2), ?_, hec, by simp [heq]⟩
      simp only [leafPaths, List.mem_append, List.mem_map]
      exact Or.inr ⟨e, he, rfl⟩
    · rcases ihl _ _ h' with ⟨e, he, hec, heq⟩ | h''
      · left
        refine ⟨(e.1, false :: e.2), ?_, hec, by simp [heq]⟩
        simp only [leafPaths, List.mem_append, List.mem_map]
        exact Or.inl ⟨e, he, rfl⟩
      · exact Or.inr h''

theorem find_codes_mem (t : huffmanNode) (p : List Bool) (m : CharMap (List Bool))
    (c : Sym) (hc : c ∈ leafSyms t) :
    CharMap.find (buildHuffmanCodesNode p t m) c ≠ none := by
  induction t generalizing p m with
  | LeafNode c0 f =>
    have : c = c0 := by simpa [leafSyms, leaves] using hc
    simp [buildHuffmanCodesNode, find_assign, this]
  | InternalNode f l r ihl ihr =>
    rw [buildHuffmanCodesNode_internal]
    by_cases hr : c ∈ leafSyms r
    · exact ihr _ _ hr
    · rw [find_codes_not_leaf r _ _ c hr]
      rw [leafSyms_internal, List.mem_append] at hc
      rcases hc with hc | hc
      · exact ihl _ _ hc
      · exact absurd hc hr

theorem wf_codes (t : huffmanNode) (p : List Bool) (m : CharMap (List Bool))
    (h : CharMap.WF m) : CharMap.WF (buildHuffmanCodesNode p t m) := by
  induction t generalizing p m with
  | LeafNode c0 f => exact wf_assign _ _ _ h
  | InternalNode f l r ihl ihr =>
    rw [buildHuffmanCodesNode_internal]
    exact ihr _ _ (ihl _ _ h)

/-- Two leaves of one tree whose paths are one a beginning of the other are
the same leaf. -/
theorem leafPaths_prefix (t : huffmanNode) (e1 e2 : Sym × List Bool)
    (h1 : e1 ∈ leafPaths t) (h2 : e2 ∈ leafPaths t) (hp : e1.2 <+: e2.2) : e1 = e2 := by
  induction t generalizing e1 e2 with
  | LeafNode c f =>
    simp only [leafPaths, List.mem_singleton] at h1 h2
    rw [h1, h2]
  | InternalNode f l r ihl ihr =>
    simp only [leafPaths, List.mem_append, List.mem_map] at h1 h2
    rcases h1 with ⟨a, ha, rfl⟩ | ⟨a, ha, rfl⟩ <;>
      rcases h2 with ⟨b, hb, rfl⟩ | ⟨b, hb, rfl⟩
    · have := ihl a b ha hb (by
        obtain ⟨r', hr'⟩ := hp
        simp only [List.cons_append, List.cons.injEq, true_and] at hr'
        exact ⟨r', hr'⟩)
      rw [this]
    · obtain ⟨r', hr'⟩ := hp
      simp at hr'
    · obtain ⟨r', hr'⟩ := hp
      simp at hr'
    · have := ihr a b ha hb (by
        obtain ⟨r', hr'⟩ := hp
        simp only [List.cons_append, List.cons.injEq, true_and] at hr'
        exact ⟨r', hr'⟩)
      rw [this]

theorem nodup_keys_of_wf {β : Type} (m : CharMap β) (h : CharMap.WF m) :
    (CharMap.keys m).Nodup := by
  unfold CharMap.WF at h
  unfold CharMap.keys
  rw [List.Nodup, List.pairwise_map]
  exact h.imp (fun hab => ne_of_lt hab)

theorem leafSyms_perm_keys (m : CharMap Int) (t : huffmanNode)
    (h : List.Perm (leaves t) m) : List.Perm (leafSyms t) (CharMap.keys m) :=
  h.map Prod.fst

theorem exists_path_of_mem_leafSyms (t : huffmanNode) (c : Sym) (h : c ∈ leafSyms t) :
    ∃ p, (c, p) ∈ leafPaths t := by
  rw [← map_fst_leafPaths, List.mem_map] at h
  obtain ⟨e, he, hec⟩ := h
  exact ⟨e.2, by rw [← hec]; exact he⟩

/-- C2: for every non-empty frequency table, `buildTree` returns a tree and
the code table `buildHuffmanCodes` builds from it (on the empty map, with the
empty code) is free of beginnings: of the codes of two distinct symbols
neither is an initial segment of the other. -/
theorem codeTable_prefix_free (m : CharMap Int) (hne : m ≠ []) :
    ∃ t, buildTree m = some t ∧
      ∀ a b ca cb, a ≠ b →
        CharMap.find (buildHuffmanCodes [] (some t) []) a = some ca →
        CharMap.find (buildHuffmanCodes [] (some t) []) b = some cb →
        ¬ ca <+: cb ∧ ¬ cb <+: ca := by
  obtain ⟨t, ht, _⟩ := buildTree_leaves m hne
  refine ⟨t, ht, ?_⟩
  intro a b ca cb hab ha hb
  have key : ∀ x y cx cy, x ≠ y →
      CharMap.find (buildHuffmanCodesNode [] t []) x = some cx →
      CharMap.find (buildHuffmanCodesNode [] t []) y = some cy → ¬ cx <+: cy := by
    intro x y cx cy hxy hx hy hp
    rcases find_codes_some t [] [] x cx hx with ⟨e1, he1, hx1, hq1⟩ | h
    · rcases find_codes_some t [] [] y cy hy with ⟨e2, he2, hy2, hq2⟩ | h
      · simp only [List.nil_append] at hq1 hq2
        have := leafPaths_prefix t e1 e2 he1 he2 (by rw [← hq1, ← hq2]; exact hp)
        exact hxy (by rw [← hx1, ← hy2, this])
      · simp [CharMap.find] at h
    · simp [CharMap.find] at h
  exact ⟨key a b ca cb hab ha hb, key b a cb ca (Ne.symm hab) hb ha⟩

theorem codeTable_prefix_free_witness :
    ∃ t, buildTree [(97, 3), (98, 1), (99, 2)] = some t ∧
      ∀ a b ca cb, a ≠ b →
        CharMap.find (buildHuffmanCodes [] (some t) []) a = some ca →
        CharMap.find (buildHuffmanCodes [] (some t) []) b = some cb →
        ¬ ca <+: cb ∧ ¬ cb <+: ca :=
  codeTable_prefix_free [(97, 3), (98, 1), (99, 2)] (by decide)

/-- C7: for every non-empty frequency table, `buildTree` returns a tree and
the code table built from it has an entry exactly for the symbols of the
frequency table, one entry each (its keys are strictly ascending). -/
theorem codeTable_keys (m : CharMap Int) (hne : m ≠ []) :
    ∃ t, buildTree m = some t ∧
      CharMap.WF (buildHuffmanCodes [] (some t) []) ∧
      ∀ c, c ∈ CharMap.keys (buildHuffmanCodes [] (some t) []) ↔ c ∈ CharMap.keys m := by
  obtain ⟨t, ht, hp⟩ := buildTree_leaves m hne
  refine ⟨t, ht, wf_codes t [] [] List.Pairwise.nil, fun c => ?_⟩
  have hk := (leafSyms_perm_keys m t hp).mem_iff (a := c)
  rw [← hk]
  constructor
  · intro h
    by_contra hc
    have h1 := find_codes_not_leaf t [] [] c hc
    have h2 := (find_eq_none_iff (buildHuffmanCodesNode [] t []) c).1
      (by rw [h1]; rfl)
    exact h2 h
  · intro h
    by_contra hc
    exact find_codes_mem t [] [] c h ((find_eq_none_iff _ c).2 hc)

theorem codeTable_keys_witness :
    ∃ t, buildTree [(97, 3), (98, 1), (99, 2)] = some t ∧
      CharMap.WF (buildHuffmanCodes [] (some t) []) ∧
      ∀ c, c ∈ CharMap.keys (buildHuffmanCodes [] (some t) []) ↔
        c ∈ CharMap.keys [(97, (3 : Int)), (98, 1), (99, 2)] :=
  codeTable_keys [(97, 3), (98, 1), (99, 2)] (by decide)

/-- C8, as the code has it: for a frequency table with at least two entries
every code of the code table is non-empty; for a table with a single entry the
tree is a lone leaf and the code of its symbol is the empty bit sequence. -/
theorem codeTable_nonempty (m : CharMap Int) (hne : m ≠ []) :
    ∃ t, buildTree m = some t ∧
      (2 ≤ m.length → ∀ c code,
        CharMap.find (buildHuffmanCodes [] (some t) []) c = some code → code ≠ []) ∧
      (m.length = 1 → ∀ c code,
        CharMap.find (buildHuffmanCodes [] (some t) []) c = some code → code = []) := by
  obtain ⟨t, ht, hp⟩ := buildTree_leaves m hne
  refine ⟨t, ht, ?_, ?_⟩
  · intro h2 c code hc
    have hl := hp.length_eq
    rcases find_codes_some t [] [] c code hc with ⟨e, he, _, hq⟩ | h
    · cases t with
      | LeafNode c0 f => simp [leaves] at hl; omega
      | InternalNode f l r =>
        rw [hq, List.nil_append]
        exact leafPaths_ne_nil_of_internal f l r e he
    · simp [CharMap.find] at h
  · intro h1 c code hc
    have hl := hp.length_eq
    rcases find_codes_some t [] [] c code hc with ⟨e, he, _, hq⟩ | h
    · cases t with
      | LeafNode c0 f =>
        simp only [leafPaths, List.mem_singleton] at he
        rw [hq, he]
        rfl
      | InternalNode f l r =>
        have h3 := length_leaves l
        have h4 := length_leaves r
        simp only [leaves, List.length_append] at hl
        omega
    · simp [CharMap.find] at h

theorem codeTable_nonempty_witness :
    ∃ t, buildTree [(97, 4), (98, 1)] = some t ∧
      ∀ c code, CharMap.find (buildHuffmanCodes [] (some t) []) c = some code →
        code ≠ [] := by
  obtain ⟨t, ht, h2, _⟩ := codeTable_nonempty [(97, 4), (98, 1)] (by decide)
  exact ⟨t, ht, h2 (by decide)⟩

/-- C8 fails as stated: for the table `{a:4}` of the input `aaaa` the tree is
the lone leaf and the code stored for `a` is the empty bit sequence, not a
one-bit code. -/
theorem single_symbol_code_empty :
    buildFreqTable [[97, 97, 97, 97, 0]] = some [(97, 4)] ∧
      buildTree [(97, 4)] = some (LeafNode 97 4) ∧
      CharMap.find (buildHuffmanCodes [] (some (LeafNode 97 4)) []) 97 = some [] ∧
      ([] : List Bool).length ≠ 1 := by
  decide

/-- C10: for every non-empty frequency table with `n` entries (its distinct
symbols), `buildTree` returns a tree with exactly `n - 1` internal nodes; for
`n = 1` the root is a leaf. -/
theorem buildTree_internalCount (m : CharMap Int) (hne : m ≠ []) :
    ∃ t, buildTree m = some t ∧ internalCount t = m.length - 1 ∧
      (m.length = 1 → ∃ c f, t = LeafNode c f) := by
  obtain ⟨t, ht, hp⟩ := buildTree_leaves m hne
  have hl := hp.length_eq
  rw [length_leaves] at hl
  refine ⟨t, ht, by omega, fun h1 => ?_⟩
  cases t with
  | LeafNode c f => exact ⟨c, f, rfl⟩
  | InternalNode f l r => simp [internalCount] at hl; omega

theorem buildTree_internalCount_witness :
    ∃ t, buildTree [(97, 3), (98, 1), (99, 2)] = some t ∧ internalCount t = 2 := by
  obtain ⟨t, ht, hc, _⟩ := buildTree_internalCount [(97, 3), (98, 1), (99, 2)] (by decide)
  exact ⟨t, ht, hc⟩

/-! ## Decoding the packed codes against the tree -/

theorem decodeFrom_path (root cur : huffmanNode) (c : Sym) (p more : List Bool)
    (hcur : ∃ f l r, cur = InternalNode f l r) (hp : (c, p) ∈ leafPaths cur) :
    decodeFrom root cur (p ++ more) = c :: decodeFrom root root more := by
  induction cur generalizing p with
  | LeafNode c0 f0 =>
    obtain ⟨f, l, r, h⟩ := hcur
    cases h
  | InternalNode f l r ihl ihr =>
    simp only [leafPaths, List.mem_append, List.mem_map, Prod.mk.injEq] at hp
    rcases hp with ⟨e, he, hec, rfl⟩ | ⟨e, he, hec, rfl⟩
    · cases l with
      | LeafNode c1 f1 =>
        simp only [leafPaths, List.mem_singleton] at he
        subst he
        simp only at hec
        subst hec
        simp [decodeFrom]
      | InternalNode f1 l1 r1 =>
        have := ihl e.2 ⟨f1, l1, r1, rfl⟩ (by rw [← hec]; exact he)
        simpa [decodeFrom] using this
    · cases r with
      | LeafNode c1 f1 =>
        simp only [leafPaths, List.mem_singleton] at he
        subst he
        simp only at hec
        subst hec
        simp [decodeFrom]
      | InternalNode f1 l1 r1 =>
        have := ihr e.2 ⟨f1, l1, r1, rfl⟩ (by rw [← hec]; exact he)
        simpa [decodeFrom] using this

theorem decode_concatCodes (root : huffmanNode) (codes : CharMap (List Bool))
    (syms : List Sym) (hroot : ∃ f l r, root = InternalNode f l r)
    (hc : ∀ c ∈ syms, (c, codeOf codes c) ∈ leafPaths root) :
    decode root (concatCodes codes syms) = syms := by
  unfold decode
  induction syms with
  | nil =>
    obtain ⟨f, l, r, rfl⟩ := hroot
    simp [concatCodes, decodeFrom]
  | cons c rest ih =>
    have h1 := decodeFrom_path root root c (codeOf codes c) (concatCodes codes rest) hroot
      (hc c (List.mem_cons_self _ _))
    have h2 := ih (fun x hx => hc x (List.mem_cons_of_mem _ hx))
    have h3 : concatCodes codes (c :: rest) = codeOf codes c ++ concatCodes codes rest := by
      simp [concatCodes]
    rw [h3, h1, h2]

/-- C1: for an input without zero byte and with at least two distinct
symbols, held in a buffer followed by a zero byte, the frequency table, the
tree and the output of the compression exist, and decoding the first
`total_code_bits` bits of the output (most significant bit first) by walking
the tree reproduces the input. The decoder is the one the specification
describes; the source has none. -/
theorem compression_decodes (s rest : List Sym) (hs : ∀ c ∈ s, c ≠ 0)
    (h2 : ∃ a ∈ s, ∃ b ∈ s, a ≠ b) :
    ∃ m t out, buildFreqTable [s ++ 0 :: rest] = some m ∧ buildTree m = some t ∧
      compression [s ++ 0 :: rest] [s ++ 0 :: rest] = some out ∧
      decode t ((bytesBits out).take
        (totalCodeBits (buildHuffmanCodes [] (some t) []) s)) = s := by
  have hz : ∀ b ∈ [s ++ 0 :: rest], (0 : Sym) ∈ b := by simp
  have hproc : processed [s ++ 0 :: rest] = s := by
    have : beforeZero (s ++ 0 :: rest) = s := by
      unfold beforeZero
      rw [List.takeWhile_append_of_pos (by simpa using hs)]
      simp
    simp [processed, this]
  have hm : buildFreqTable [s ++ 0 :: rest] = some (s.foldl incr []) := by
    unfold buildFreqTable
    rw [countChunks_eq _ _ hz, hproc]
  have hkeys : ∀ c, c ∈ CharMap.keys (s.foldl incr []) ↔ c ∈ s := by
    intro c
    have h1 := find_eq_none_iff (s.foldl incr []) c
    rw [find_foldl_incr] at h1
    by_cases hc : c ∈ s
    · simp only [hc, if_true, iff_true]
      by_contra hcon
      have := h1.2 hcon
      simp [hc] at this
    · simp only [hc, if_false, iff_false]
      exact h1.1 (by simp [hc, CharMap.find])
  have hne : s.foldl incr [] ≠ [] := by
    obtain ⟨a, ha, _⟩ := h2
    intro h
    have := (hkeys a).2 ha
    rw [h] at this
    simp [CharMap.keys] at this
  have hwf : CharMap.WF (s.foldl incr []) := wf_foldl_incr s [] List.Pairwise.nil
  obtain ⟨t, ht, hp⟩ := buildTree_leaves _ hne
  have hsyms := leafSyms_perm_keys _ t hp
  have hnd : (leafSyms t).Nodup := hsyms.symm.nodup (nodup_keys_of_wf _ hwf)
  have hroot : ∃ f l r, t = InternalNode f l r := by
    cases t with
    | LeafNode c f =>
      obtain ⟨a, ha, b, hb, hab⟩ := h2
      have h1 := hsyms.mem_iff.2 ((hkeys a).2 ha)
      have h3 := hsyms.mem_iff.2 ((hkeys b).2 hb)
      simp only [leafSyms, leaves, List.map_cons, List.map_nil, List.mem_singleton] at h1 h3
      exact absurd (h1.trans h3.symm) hab
    | InternalNode f l r => exact ⟨f, l, r, rfl⟩
  have hcodes : ∀ c ∈ s, (c, codeOf (buildHuffmanCodes [] (some t) []) c) ∈ leafPaths t := by
    intro c hc
    obtain ⟨p, hp'⟩ := exists_path_of_mem_leafSyms t c
      (hsyms.mem_iff.2 ((hkeys c).2 hc))
    have := find_codes_leaf t [] [] hnd c p hp'
    rw [List.nil_append] at this
    unfold codeOf buildHuffmanCodes
    rw [this]
    exact hp'
  obtain ⟨out, ho1, ho2, _, _⟩ := encodeFile_eq (buildHuffmanCodes [] (some t) [])
    [s ++ 0 :: rest] hz
  rw [hproc] at ho2
  refine ⟨_, t, out, hm, ht, ?_, ?_⟩
  · simp only [compression, hm, ht]
    exact ho1
  · rw [ho2, ← length_concatCodes, List.take_left']
    · exact decode_concatCodes t _ s hroot hcodes
    · rfl

theorem compression_decodes_witness :
    ∃ m t out, buildFreqTable [[97, 98, 97, 99] ++ 0 :: [5]] = some m ∧
      buildTree m = some t ∧
      compression [[97, 98, 97, 99] ++ 0 :: [5]] [[97, 98, 97, 99] ++ 0 :: [5]] = some out ∧
      decode t ((bytesBits out).take
        (totalCodeBits (buildHuffmanCodes [] (some t) []) [97, 98, 97, 99])) =
        [97, 98, 97, 99] :=
  compression_decodes [97, 98, 97, 99] [5] (by decide)
    ⟨97, by decide, 98, by decide, by decide⟩

/-! ## The heap algorithms keep the heap order -/

theorem frqAt_getD (a : List huffmanNode) (i : Nat) (d : huffmanNode) (h : i < a.length) :
    (a.getD i d).frq = frqAt a i := by
  simp [frqAt, List.getD_eq_getElem?_getD, List.getElem?_eq_getElem h]

theorem frqAt_set (a : List huffmanNode) (i j : Nat) (x : huffmanNode) :
    frqAt (a.set i x) j = if i = j ∧ i < a.length then x.frq else frqAt a j := by
  unfold frqAt
  rw [List.getElem?_set]
  by_cases h : i = j
  · subst h
    by_cases h2 : i < a.length
    · simp [h2]
    · simp [h2, List.getElem?_eq_none (not_lt.1 h2)]
  · simp [h]

theorem myFreqComp_iff (x y : huffmanNode) : myFreqComp x y = true ↔ y.frq < x.frq := by
  simp [myFreqComp]

/-- Filling the hole with a value that fits gives a heap. -/
theorem holeHeap_fill (a : List huffmanNode) (len h : Nat) (x : huffmanNode)
    (hh : h < len) (hl : len ≤ a.length) (H : HoleHeap a len h)
    (hc : ∀ j, 0 < j → j < len → (j - 1) / 2 = h → x.frq ≤ frqAt a j)
    (hp : h = 0 ∨ frqAt a ((h - 1) / 2) ≤ x.frq) :
    IsHeap (a.set h x) len := by
  intro j hj0 hjl
  rw [frqAt_set, frqAt_set]
  by_cases h1 : j = h
  · subst h1
    have hpar : ¬ (j = (j - 1) / 2 ∧ j < a.length) := by omega
    rw [if_neg hpar, if_pos ⟨rfl, by omega⟩]
    rcases hp with hp | hp
    · omega
    · exact hp
  · by_cases h2 : (j - 1) / 2 = h
    · rw [if_pos ⟨h2.symm, by omega⟩, if_neg (by omega)]
      exact hc j hj0 hjl h2
    · rw [if_neg (by omega), if_neg (by omega)]
      exact H.1 j hj0 hjl h1 h2

/-- Moving the parent into the hole moves the hole up. -/
theorem holeHeap_up (a : List huffmanNode) (len h : Nat) (d : huffmanNode)
    (hh : h < len) (hl : len ≤ a.length) (h0 : 0 < h) (H : HoleHeap a len h) :
    HoleHeap (a.set h (a.getD ((h - 1) / 2) d)) len ((h - 1) / 2) := by
  have hpv : (a.getD ((h - 1) / 2) d).frq = frqAt a ((h - 1) / 2) :=
    frqAt_getD a _ d (by omega)
  refine ⟨?_, ?_⟩
  · intro j hj0 hjl hj1 hj2
    rw [frqAt_set, frqAt_set, hpv]
    by_cases h1 : j = h
    · omega
    · by_cases h2 : (j - 1) / 2 = h
      · rw [if_pos ⟨h2.symm, by omega⟩, if_neg (by omega)]
        exact H.2 j hj0 hjl h2 h0
      · rw [if_neg (by omega), if_neg (by omega)]
        exact H.1 j hj0 hjl h1 h2
  · intro j hj0 hjl hj1 hj2
    rw [frqAt_set, frqAt_set, hpv]
    have hpp : ¬ (h = ((h - 1) / 2 - 1) / 2 ∧ h < a.length) := by omega
    rw [if_neg hpp]
    have hgp : frqAt a (((h - 1) / 2 - 1) / 2) ≤ frqAt a ((h - 1) / 2) :=
      H.1 ((h - 1) / 2) hj2 (by omega) (by omega) (by omega)
    by_cases h1 : j = h
    · rw [if_pos ⟨h1.symm, by omega⟩]
      exact hgp
    · rw [if_neg (by omega)]
      have := H.1 j hj0 hjl h1 (by omega)
      rw [hj1] at this
      exact le_trans hgp this

/-- The function `std::__push_heap` with `myFreqComp` turns a heap with a hole,
whose children do not compare before the value, into a heap. -/
theorem pushHeapAux_heap (v : huffmanNode) (fuel h : Nat) (a : List huffmanNode)
    (len : Nat) (hh : h < len) (hl : len ≤ a.length) (hf : h ≤ fuel)
    (H : HoleHeap a len h)
    (hc : ∀ j, 0 < j → j < len → (j - 1) / 2 = h → v.frq ≤ frqAt a j) :
    IsHeap (pushHeapAux myFreqComp 0 v fuel h a) len := by
  induction fuel generalizing h a with
  | zero =>
    simp only [pushHeapAux]
    exact holeHeap_fill a len h v hh hl H hc (Or.inl (by omega))
  | succ n ih =>
    by_cases hcond : (decide (h > 0) && myFreqComp (a.getD ((h - 1) / 2) v) v) = true
    · simp only [pushHeapAux, hcond, if_true]
      simp only [Bool.and_eq_true, decide_eq_true_eq, myFreqComp_iff] at hcond
      obtain ⟨h0, hlt⟩ := hcond
      rw [frqAt_getD a _ v (by omega)] at hlt
      refine ih ((h - 1) / 2) _ (by omega) (by simpa using hl) (by omega)
        (holeHeap_up a len h v hh hl h0 H) ?_
      intro j hj0 hjl hj1
      rw [frqAt_set, frqAt_getD a _ v (by omega)]
      by_cases h1 : j = h
      · rw [if_pos ⟨h1.symm, by omega⟩]
        exact le_of_lt hlt
      · rw [if_neg (by omega)]
        have := H.1 j hj0 hjl h1 (by omega)
        rw [hj1] at this
        exact le_trans (le_of_lt hlt) this
    · simp only [pushHeapAux, hcond, Bool.false_eq_true, if_false]
      refine holeHeap_fill a len h v hh hl H hc ?_
      by_cases h0 : 0 < h
      · right
        simp only [Bool.and_eq_true, decide_eq_true_eq, myFreqComp_iff, not_and, not_lt]
          at hcond
        have := hcond h0
        rwa [frqAt_getD a _ v (by omega)] at this
      · left; omega

/-- Moving the child `s` that no sibling compares before into the hole moves
the hole down. -/
theorem holeHeap_down (a : List huffmanNode) (len h s : Nat) (d : huffmanNode)
    (hl : len ≤ a.length) (hs : (s - 1) / 2 = h) (hs0 : 0 < s) (hsl : s < len)
    (hmin : ∀ j, 0 < j → j < len → (j - 1) / 2 = h → frqAt a s ≤ frqAt a j)
    (H : HoleHeap a len h) :
    HoleHeap (a.set h (a.getD s d)) len s := by
  have hsv : (a.getD s d).frq = frqAt a s := frqAt_getD a _ d (by omega)
  refine ⟨?_, ?_⟩
  · intro j hj0 hjl hj1 hj2
    rw [frqAt_set, frqAt_set, hsv]
    by_cases h1 : j = h
    · subst h1
      rw [if_neg (by omega), if_pos ⟨rfl, by omega⟩]
      exact H.2 s hs0 hsl hs hj0
    · by_cases h2 : (j - 1) / 2 = h
      · rw [if_pos ⟨h2.symm, by omega⟩, if_neg (by omega)]
        exact hmin j hj0 hjl h2
      · rw [if_neg (by omega), if_neg (by omega)]
        exact H.1 j hj0 hjl h1 h2
  · intro j hj0 hjl hj1 hj2
    rw [frqAt_set, frqAt_set, hsv]
    rw [if_pos ⟨hs.symm, by omega⟩, if_neg (by omega)]
    have := H.1 j hj0 hjl (by omega) (by omega)
    rwa [hj1] at this

/-- The descent of `std::__adjust_heap` with `myFreqComp` keeps the heap with a
hole and stops at a hole without a right child below `len`. -/
theorem adjustDown_heap (v : huffmanNode) (len fuel h : Nat) (a : List huffmanNode)
    (hh : h < len) (hl : len ≤ a.length) (hf : len ≤ fuel + h) (H : HoleHeap a len h) :
    HoleHeap (adjustDown myFreqComp len v fuel h h a).1 len
        (adjustDown myFreqComp len v fuel h h a).2.1 ∧
      ¬ (adjustDown myFreqComp len v fuel h h a).2.1 < (len - 1) / 2 := by
  induction fuel generalizing h a with
  | zero => omega
  | succ n ih =>
    by_cases hc : h < (len - 1) / 2
    · simp only [adjustDown, hc, if_true]
      have hr : (a.getD (2 * (h + 1)) v).frq = frqAt a (2 * (h + 1)) :=
        frqAt_getD a _ v (by omega)
      have hlft : (a.getD (2 * (h + 1) - 1) v).frq = frqAt a (2 * (h + 1) - 1) :=
        frqAt_getD a _ v (by omega)
      by_cases hcmp : myFreqComp (a.getD (2 * (h + 1)) v) (a.getD (2 * (h + 1) - 1) v) = true
      · simp only [hcmp, if_true]
        rw [myFreqComp_iff, hr, hlft] at hcmp
        refine ih (2 * (h + 1) - 1) _ (by omega) (by simpa using hl) (by omega) ?_
        refine holeHeap_down a len h _ v hl (by omega) (by omega) (by omega) ?_ H
        intro j hj0 hjl hj1
        have hj : j = 2 * (h + 1) - 1 ∨ j = 2 * (h + 1) := by omega
        rcases hj with hj | hj
        · rw [hj]
        · rw [hj]; exact le_of_lt hcmp
      · simp only [hcmp, Bool.false_eq_true, if_false]
        rw [myFreqComp_iff, hr, hlft, not_lt] at hcmp
        refine ih (2 * (h + 1)) _ (by omega) (by simpa using hl) (by omega) ?_
        refine holeHeap_down a len h _ v hl (by omega) (by omega) (by omega) ?_ H
        intro j hj0 hjl hj1
        have hj : j = 2 * (h + 1) - 1 ∨ j = 2 * (h + 1) := by omega
        rcases hj with hj | hj
        · rw [hj]; exact hcmp
        · rw [hj]
    · have he : adjustDown myFreqComp len v (n + 1) h h a = (a, h, h) := by
        simp only [adjustDown, hc, if_false]
      rw [he]
      exact ⟨H, hc⟩

/-- The function `std::__adjust_heap` with `myFreqComp`, called at the top of a
heap whose top entry is left out, gives a heap holding `value`. -/
theorem adjustHeap_heap (v : huffmanNode) (len : Nat) (a : List huffmanNode)
    (h0 : 0 < len) (hl : len ≤ a.length) (H : HoleHeap a len 0) :
    IsHeap (adjustHeap myFreqComp a 0 len v) len := by
  obtain ⟨h1, h2, h3, _, _, _⟩ := adjustDown_frame myFreqComp len v len 0 a h0 hl
  obtain ⟨h7, h8⟩ := adjustDown_heap v len len 0 a h0 hl (by omega) H
  unfold adjustHeap
  simp only
  generalize adjustDown myFreqComp len v len 0 0 a = r at h1 h2 h3 h7 h8
  obtain ⟨a1, hole0, hole1⟩ := r
  simp only at h1 h2 h3 h7 h8
  subst h3
  unfold pushHeap
  by_cases hc : len % 2 = 0 ∧ hole1 = (len - 2) / 2
  · simp only [hc, and_self, if_true]
    rw [← hc.2, show 2 * (hole1 + 1) - 1 = len - 1 by omega]
    refine pushHeapAux_heap v (len - 1) (len - 1) _ len (by omega) (by simpa [h1] using hl)
      (Nat.le_refl _) ?_ ?_
    · refine holeHeap_down a1 len hole1 (len - 1) v (by omega) (by omega) (by omega)
        (by omega) ?_ h7
      intro j hj0 hjl hj1
      have : j = len - 1 := by omega
      rw [this]
    · intro j hj0 hjl hj1
      omega
  · simp only [hc, if_false]
    refine pushHeapAux_heap v hole1 hole1 a1 len h2 (by omega) (Nat.le_refl _) h7 ?_
    intro j hj0 hjl hj1
    omega

theorem frqAt_append_left (c : List huffmanNode) (x : huffmanNode) (j : Nat)
    (h : j < c.length) : frqAt (c ++ [x]) j = frqAt c j := by
  unfold frqAt
  rw [List.getElem?_append_left h]

/-- Pushing onto a heap gives a heap. -/
theorem pqPush_heap (c : List huffmanNode) (x : huffmanNode) (H : IsHeap c c.length) :
    IsHeap (pqPush myFreqComp c x) (c.length + 1) := by
  unfold pqPush pushHeap
  refine pushHeapAux_heap x c.length c.length (c ++ [x]) (c.length + 1) (by omega)
    (by simp) (Nat.le_refl _) ⟨?_, ?_⟩ ?_
  · intro j hj0 hjl hj1 hj2
    rw [frqAt_append_left c x j (by omega), frqAt_append_left c x _ (by omega)]
    exact H j hj0 (by omega)
  · intro j hj0 hjl hj1 hj2
    omega
  · intro j hj0 hjl hj1
    omega

/-- The top of a heap has the least frequency. -/
theorem isHeap_top_le (a : List huffmanNode) (len : Nat) (H : IsHeap a len) (j : Nat)
    (hj : j < len) : frqAt a 0 ≤ frqAt a j := by
  induction j using Nat.strong_induction_on with
  | _ j ih =>
    by_cases h0 : j = 0
    · rw [h0]
    · exact le_trans (ih ((j - 1) / 2) (by omega) (by omega)) (H j (by omega) hj)

theorem frqAt_dropLast (a : List huffmanNode) (j : Nat) (h : j + 1 < a.length) :
    frqAt a.dropLast j = frqAt a j := by
  unfold frqAt
  rw [List.dropLast_eq_take, List.getElem?_take_of_lt (by omega)]

theorem frqAt_mem (a : List huffmanNode) (z : huffmanNode) (h : z ∈ a) :
    ∃ j, j < a.length ∧ frqAt a j = z.frq := by
  obtain ⟨j, hj, hz⟩ := List.getElem_of_mem h
  exact ⟨j, hj, by simp [frqAt, List.getElem?_eq_getElem hj, hz]⟩

/-- Popping a heap removes its first node, which has the least frequency, and
leaves a heap of the other nodes. -/
theorem pqPop_heap (x : huffmanNode) (rest : List huffmanNode)
    (H : IsHeap (x :: rest) (rest.length + 1)) :
    ∃ q, pqPop myFreqComp (x :: rest) = some q ∧ List.Perm q rest ∧
      IsHeap q q.length ∧ ∀ z ∈ rest, x.frq ≤ z.frq := by
  obtain ⟨q, hq, hp⟩ := pqPop_perm myFreqComp x rest
  refine ⟨q, hq, hp, ?_, ?_⟩
  · by_cases h1 : (x :: rest).length > 1
    · simp only [pqPop, h1, if_true, Option.some.injEq] at hq
      have hlast : (x :: rest).length - 1 = rest.length := by simp
      rw [hlast] at hq
      have hpos : 0 < rest.length := by simpa using h1
      have hH : HoleHeap ((x :: rest).set rest.length x) rest.length 0 := by
        refine ⟨?_, ?_⟩
        · intro j hj0 hjl hj1 hj2
          rw [frqAt_set, frqAt_set, if_neg (by omega), if_neg (by omega)]
          exact H j hj0 (by omega)
        · intro j hj0 hjl hj1 hj2
          omega
      have hR := adjustHeap_heap ((x :: rest).getD rest.length x) rest.length
        ((x :: rest).set rest.length x) hpos (by simp) hH
      have hRl := (adjustHeap_frame myFreqComp ((x :: rest).set rest.length x) 0
        rest.length ((x :: rest).getD rest.length x) hpos (by simp)).1
      rw [← hq]
      generalize adjustHeap myFreqComp ((x :: rest).set rest.length x) 0
        rest.length ((x :: rest).getD rest.length x) = R at hR hRl
      have hRlen : R.length = rest.length + 1 := by simpa using hRl
      intro j hj0 hjl
      have hjl' : j < rest.length := by
        rw [List.length_dropLast] at hjl; omega
      rw [frqAt_dropLast R j (by omega), frqAt_dropLast R _ (by omega)]
      exact hR j hj0 hjl'
    · have hr : q = [] := by
        have := hp.length_eq
        cases rest with
        | nil => simpa using this
        | cons y t => simp at h1
      rw [hr]
      intro j hj0 hjl
      simp at hjl
  · intro z hz
    obtain ⟨j, hj, hjz⟩ := frqAt_mem (x :: rest) z (List.mem_cons_of_mem _ hz)
    have := isHeap_top_le (x :: rest) (rest.length + 1) H j (by simpa using hj)
    rw [hjz] at this
    simpa [frqAt] using this

theorem pushLeaves_heap (m : CharMap Int) (q : List huffmanNode) (H : IsHeap q q.length) :
    IsHeap (pushLeaves m q) (pushLeaves m q).length := by
  induction m generalizing q with
  | nil => simpa [pushLeaves] using H
  | cons i rest ih =>
    simp only [pushLeaves]
    apply ih
    have hl : (pqPush myFreqComp q (LeafNode i.1 i.2)).length = q.length + 1 := by
      simpa using (pqPush_perm myFreqComp q (LeafNode i.1 i.2)).length_eq
    rw [hl]
    exact pqPush_heap q _ H

/-- One iteration of the merge loop of `buildTree` on a heap of at least two
nodes: the two nodes taken out have the two least frequencies, the first no
more than the second, and the queue is a heap again afterwards. -/
theorem mergeLoop_step_heap (fuel : Nat) (q : List huffmanNode) (h2 : 2 ≤ q.length)
    (H : IsHeap q q.length) :
    ∃ x y q2 q3, List.Perm q (x :: y :: q2) ∧ List.Perm q3 (mkInternal x y :: q2) ∧
      mergeLoop (fuel + 1) q = mergeLoop fuel q3 ∧ IsHeap q3 q3.length ∧
      x.frq ≤ y.frq ∧ ∀ z ∈ q2, y.frq ≤ z.frq := by
  obtain ⟨x, rest, rfl⟩ : ∃ x rest, q = x :: rest := by
    cases q with
    | nil => simp at h2
    | cons x rest => exact ⟨x, rest, rfl⟩
  obtain ⟨q1, hq1, hp1, hh1, hm1⟩ := pqPop_heap x rest (by simpa using H)
  obtain ⟨y, rest1, rfl⟩ : ∃ y rest1, q1 = y :: rest1 := by
    cases q1 with
    | nil =>
      have := hp1.length_eq
      simp at this h2
      omega
    | cons y rest1 => exact ⟨y, rest1, rfl⟩
  obtain ⟨q2, hq2, hp2, hh2, hm2⟩ := pqPop_heap y rest1 (by simpa using hh1)
  have hl3 : (pqPush myFreqComp q2 (mkInternal x y)).length = q2.length + 1 := by
    simpa using (pqPush_perm myFreqComp q2 (mkInternal x y)).length_eq
  refine ⟨x, y, q2, pqPush myFreqComp q2 (mkInternal x y), ?_, pqPush_perm _ _ _, ?_, ?_,
    ?_, ?_⟩
  · exact (hp1.symm.trans (hp2.symm.cons y)).cons x
  · have hne : (x :: rest).length ≠ 1 := by omega
    simp only [mergeLoop, hne, ne_eq, not_false_eq_true, if_true, pqTop, List.head?_cons,
      hq1, hq2]
  · rw [hl3]
    exact pqPush_heap q2 _ hh2
  · exact hm1 y (hp1.mem_iff.1 (List.mem_cons_self _ _))
  · intro z hz
    exact hm2 z (hp2.mem_iff.1 hz)

/-! ## Leaves with their depths -/

theorem costFrom_eq_wcost (t : huffmanNode) (d : Nat) :
    costFrom d t = wcost (leafDepths d t) := by
  induction t generalizing d with
  | LeafNode c f => simp [costFrom, leafDepths, wcost]
  | InternalNode f l r ihl ihr =>
    simp only [costFrom, leafDepths, ihl, ihr, wcost, Multiset.map_add, Multiset.sum_add]

theorem leafSum_internal (f : Int) (l r : huffmanNode) :
    leafSum (InternalNode f l r) = leafSum l + leafSum r := by
  simp [leafSum, leaves]

theorem costFrom_succ (t : huffmanNode) (d : Nat) :
    costFrom (d + 1) t = costFrom d t + leafSum t := by
  induction t generalizing d with
  | LeafNode c f =>
    simp only [costFrom, leafSum, leaves, List.map_cons, List.map_nil, List.sum_cons,
      List.sum_nil, Nat.cast_add, Nat.cast_one]
    ring
  | InternalNode f l r ihl ihr =>
    simp only [costFrom, leafSum_internal, ihl, ihr]
    ring

theorem weights_leafDepths (t : huffmanNode) (d : Nat) :
    (leafDepths d t).map Prod.fst = (((leaves t).map Prod.snd : List Int) : Multiset Int) := by
  induction t generalizing d with
  | LeafNode c f => simp [leafDepths, leaves]
  | InternalNode f l r ihl ihr =>
    simp only [leafDepths, leaves, Multiset.map_add, ihl, ihr, List.map_append,
      Multiset.coe_add]

theorem depth_bounds (t : huffmanNode) (d : Nat) :
    ∀ p ∈ leafDepths d t, d ≤ p.2 ∧ p.2 ≤ d + height t := by
  induction t generalizing d with
  | LeafNode c f =>
    intro p hp
    simp only [leafDepths, Multiset.mem_singleton] at hp
    simp [hp, height]
  | InternalNode f l r ihl ihr =>
    intro p hp
    simp only [leafDepths, Multiset.mem_add] at hp
    simp only [height]
    rcases hp with hp | hp
    · have := ihl (d + 1) p hp
      omega
    · have := ihr (d + 1) p hp
      omega

theorem kraft_add (D : Nat) (L1 L2 : Multiset (Int × Nat)) :
    kraft D (L1 + L2) = kraft D L1 + kraft D L2 := by
  simp [kraft]

theorem kraft_cons (D : Nat) (p : Int × Nat) (L : Multiset (Int × Nat)) :
    kraft D (p ::ₘ L) = 2 ^ (D - p.2) + kraft D L := by
  simp [kraft]

theorem wcost_cons (p : Int × Nat) (L : Multiset (Int × Nat)) :
    wcost (p ::ₘ L) = p.1 * (p.2 : Int) + wcost L := by
  simp [wcost]

theorem kraft_leafDepths (t : huffmanNode) (d D : Nat) (h : d + height t ≤ D) :
    kraft D (leafDepths d t) = 2 ^ (D - d) := by
  induction t generalizing d with
  | LeafNode c f => simp [leafDepths, kraft]
  | InternalNode f l r ihl ihr =>
    simp only [height] at h
    rw [leafDepths, kraft_add, ihl (d + 1) (by omega), ihr (d + 1) (by omega)]
    have : D - d = (D - (d + 1)) + 1 := by omega
    rw [this, pow_succ]
    ring

/-- The leaves of a tree, with their depths, have Kraft sum one. -/
theorem kraftAt_leafDepths (t : huffmanNode) : KraftAt (height t) (leafDepths 0 t) := by
  refine ⟨fun p hp => ?_, ?_⟩
  · have := depth_bounds t 0 p hp
    omega
  · simpa using kraft_leafDepths t 0 (height t) (by omega)

/-! ## The exchange argument on depth assignments -/

theorem kraft_lower (D M : Nat) (L : Multiset (Int × Nat)) (hM : M ≤ D)
    (hb : ∀ p ∈ L, p.2 ≤ M) : kraft D L = 2 ^ (D - M) * kraft M L := by
  induction L using Multiset.induction_on with
  | empty => simp [kraft]
  | cons p s ih =>
    have hp : p.2 ≤ M := hb p (Multiset.mem_cons_self _ _)
    rw [kraft_cons, kraft_cons, ih (fun q hq => hb q (Multiset.mem_cons_of_mem hq)),
      Nat.mul_add, ← pow_add]
    congr 2
    omega

theorem kraft_zero (L : Multiset (Int × Nat)) : kraft 0 L = Multiset.card L := by
  induction L using Multiset.induction_on with
  | empty => simp [kraft]
  | cons p s ih =>
    rw [kraft_cons, ih, Multiset.card_cons]
    simp
    omega

theorem exists_max_depth (L : Multiset (Int × Nat)) (h : L ≠ 0) :
    ∃ p ∈ L, ∀ q ∈ L, q.2 ≤ p.2 := by
  have hne : L.toFinset.Nonempty := by
    obtain ⟨a, ha⟩ := Multiset.exists_mem_of_ne_zero h
    exact ⟨a, Multiset.mem_toFinset.2 ha⟩
  obtain ⟨p, hp, hmax⟩ := Finset.exists_max_image L.toFinset (fun q => q.2) hne
  exact ⟨p, Multiset.mem_toFinset.1 hp, fun q hq => hmax q (Multiset.mem_toFinset.2 hq)⟩

/-- A depth assignment with Kraft sum one has it at its greatest depth too. -/
theorem kraftAt_max (D : Nat) (L : Multiset (Int × Nat)) (hne : L ≠ 0) (hK : KraftAt D L) :
    ∃ M, KraftAt M L ∧ ∃ p ∈ L, p.2 = M := by
  obtain ⟨p, hp, hmax⟩ := exists_max_depth L hne
  refine ⟨p.2, ⟨hmax, ?_⟩, p, hp, rfl⟩
  have hle : p.2 ≤ D := hK.1 p hp
  have h1 := kraft_lower D p.2 L hle hmax
  rw [hK.2] at h1
  have h2 : 2 ^ D = 2 ^ (D - p.2) * 2 ^ p.2 := by
    rw [← pow_add]
    congr 1
    omega
  rw [h2] at h1
  exact (Nat.eq_of_mul_eq_mul_left (by positivity) h1).symm

theorem kraft_parity (M : Nat) (L : Multiset (Int × Nat)) (hb : ∀ p ∈ L, p.2 ≤ M) :
    kraft M L % 2 = Multiset.countP (fun p => p.2 = M) L % 2 := by
  induction L using Multiset.induction_on with
  | empty => simp [kraft]
  | cons p s ih =>
    have hp : p.2 ≤ M := hb p (Multiset.mem_cons_self _ _)
    have ih' := ih (fun q hq => hb q (Multiset.mem_cons_of_mem hq))
    rw [kraft_cons, Multiset.countP_cons]
    by_cases hpm : p.2 = M
    · simp only [hpm, Nat.sub_self, pow_zero, if_true]
      omega
    · simp only [hpm, if_false]
      obtain ⟨k, hk⟩ : ∃ k, M - p.2 = k + 1 := ⟨M - p.2 - 1, by omega⟩
      rw [hk, pow_succ]
      omega

/-- At the greatest depth of an assignment of at least two depths with Kraft
sum one there is an even number of entries, and the depth is not zero. -/
theorem kraftAt_even (M : Nat) (L : Multiset (Int × Nat)) (hK : KraftAt M L)
    (h2 : 2 ≤ Multiset.card L) :
    0 < M ∧ Multiset.countP (fun p => p.2 = M) L % 2 = 0 := by
  have hM : 0 < M := by
    by_contra h0
    have h0' : M = 0 := by omega
    have := hK.2
    rw [h0', kraft_zero] at this
    simp at this
    omega
  refine ⟨hM, ?_⟩
  rw [← kraft_parity M L hK.1, hK.2]
  obtain ⟨k, hk⟩ : ∃ k, M = k + 1 := ⟨M - 1, by omega⟩
  rw [hk, pow_succ]
  omega

theorem weights_cons_decomp (L : Multiset (Int × Nat)) (w : Int) (R : Multiset Int)
    (h : L.map Prod.fst = w ::ₘ R) :
    ∃ d L0, L = (w, d) ::ₘ L0 ∧ L0.map Prod.fst = R := by
  obtain ⟨p, hp, hpw, hrest⟩ := (Multiset.map_eq_cons Prod.fst L R w).2 h
  refine ⟨p.2, L.erase p, ?_, hrest⟩
  rw [← hpw]
  exact (Multiset.cons_erase hp).symm

theorem exists_depth_of_countP_pos (M : Nat) (L : Multiset (Int × Nat))
    (h : 0 < Multiset.countP (fun p => p.2 = M) L) :
    ∃ a L1, L = (a, M) ::ₘ L1 := by
  obtain ⟨q, hq, hqM⟩ := Multiset.countP_pos.1 h
  obtain ⟨L1, hL1⟩ := Multiset.exists_cons_of_mem hq
  refine ⟨q.1, L1, ?_⟩
  rw [hL1]
  congr 1
  exact Prod.ext rfl hqM

/-- The exchange step of the optimality argument: in a depth assignment with
Kraft sum one whose two least weights are `w1 ≤ w2`, the two can be moved to
the greatest depth and merged into one entry of weight `w1 + w2` one level up;
the Kraft sum stays one and the weighted length drops by at least `w1 + w2`. -/
theorem exchange (L : Multiset (Int × Nat)) (D : Nat) (w1 w2 : Int) (Rest : Multiset Int)
    (hK : KraftAt D L) (hw : L.map Prod.fst = w1 ::ₘ w2 ::ₘ Rest) (h12 : w1 ≤ w2)
    (hR : ∀ x ∈ Rest, w2 ≤ x) :
    ∃ L' D', KraftAt D' L' ∧ L'.map Prod.fst = (w1 + w2) ::ₘ Rest ∧
      wcost L' + (w1 + w2) ≤ wcost L := by
  obtain ⟨d1, T, hT, hTw⟩ := weights_cons_decomp L w1 _ hw
  obtain ⟨d2, L0, hL0, hL0w⟩ := weights_cons_decomp T w2 _ hTw
  subst hL0
  subst hT
  subst hL0w
  have hR0 : ∀ p ∈ L0, w2 ≤ p.1 := fun p hp => hR p.1 (Multiset.mem_map_of_mem _ hp)
  obtain ⟨M, hKM, pm, hpm, hpmM⟩ := kraftAt_max D _ (Multiset.cons_ne_zero) hK
  obtain ⟨hM, hev⟩ := kraftAt_even M _ hKM (by simp)
  have hpos : 0 < Multiset.countP (fun p => p.2 = M) ((w1, d1) ::ₘ (w2, d2) ::ₘ L0) :=
    Multiset.countP_pos.2 ⟨pm, hpm, hpmM⟩
  obtain ⟨K, rfl⟩ : ∃ K, M = K + 1 := ⟨M - 1, by omega⟩
  obtain ⟨hb, hk⟩ := hKM
  have hd1 : d1 ≤ K + 1 := hb (w1, d1) (by simp)
  have hd2 : d2 ≤ K + 1 := hb (w2, d2) (by simp)
  have hb0 : ∀ p ∈ L0, p.2 ≤ K + 1 := fun p hp => hb p (by simp [hp])
  rw [Multiset.countP_cons, Multiset.countP_cons] at hev hpos
  rw [kraft_cons, kraft_cons] at hk
  simp only at hk hev hpos
  have hKK : K + 1 - K = 1 := by omega
  by_cases e1 : d1 = K + 1
  · by_cases e2 : d2 = K + 1
    · subst e1 e2
      refine ⟨(w1 + w2, K) ::ₘ L0, K + 1, ⟨?_, ?_⟩, by simp, ?_⟩
      · intro p hp
        rcases Multiset.mem_cons.1 hp with rfl | hp
        · simp
        · exact hb0 p hp
      · rw [kraft_cons]
        simp only [hKK, pow_one]
        simp only [Nat.sub_self, pow_zero] at hk
        omega
      · simp only [wcost_cons]
        push_cast
        linarith
    · simp only [e1, e2, if_true, if_false] at hev hpos
      obtain ⟨a, L1, rfl⟩ := exists_depth_of_countP_pos (K + 1) L0 (by omega)
      have ha : w2 ≤ a := hR0 (a, K + 1) (by simp)
      subst e1
      refine ⟨(w1 + w2, K) ::ₘ (a, d2) ::ₘ L1, K + 1, ⟨?_, ?_⟩, by simp, ?_⟩
      · intro p hp
        rcases Multiset.mem_cons.1 hp with rfl | hp
        · simp
        · rcases Multiset.mem_cons.1 hp with rfl | hp
          · exact hd2
          · exact hb0 p (by simp [hp])
      · rw [kraft_cons, kraft_cons]
        rw [kraft_cons] at hk
        simp only [hKK, pow_one]
        simp only [Nat.sub_self, pow_zero] at hk
        omega
      · simp only [wcost_cons]
        push_cast
        have hd : (0 : Int) ≤ ((K : Int) + 1 - d2) := by
          have : (d2 : Int) ≤ K + 1 := by exact_mod_cast hd2
          linarith
        nlinarith [mul_nonneg (sub_nonneg.2 ha) hd]
  · by_cases e2 : d2 = K + 1
    · simp only [e1, e2, if_true, if_false] at hev hpos
      obtain ⟨a, L1, rfl⟩ := exists_depth_of_countP_pos (K + 1) L0 (by omega)
      have ha : w2 ≤ a := hR0 (a, K + 1) (by simp)
      subst e2
      refine ⟨(w1 + w2, K) ::ₘ (a, d1) ::ₘ L1, K + 1, ⟨?_, ?_⟩, by simp, ?_⟩
      · intro p hp
        rcases Multiset.mem_cons.1 hp with rfl | hp
        · simp
        · rcases Multiset.mem_cons.1 hp with rfl | hp
          · exact hd1
          · exact hb0 p (by simp [hp])
      · rw [kraft_cons, kraft_cons]
        rw [kraft_cons] at hk
        simp only [hKK, pow_one]
        simp only [Nat.sub_self, pow_zero] at hk
        omega
      · simp only [wcost_cons]
        push_cast
        have hd : (0 : Int) ≤ ((K : Int) + 1 - d1) := by
          have : (d1 : Int) ≤ K + 1 := by exact_mod_cast hd1
          linarith
        nlinarith [mul_nonneg (sub_nonneg.2 (le_trans h12 ha)) hd]
    · simp only [e1, e2, if_false, add_zero] at hev hpos
      obtain ⟨a, L1, rfl⟩ := exists_depth_of_countP_pos (K + 1) L0 hpos
      rw [Multiset.countP_cons] at hev
      simp only [if_true] at hev
      obtain ⟨b, L2, rfl⟩ := exists_depth_of_countP_pos (K + 1) L1 (by omega)
      have ha : w2 ≤ a := hR0 (a, K + 1) (by simp)
      have hb' : w2 ≤ b := hR0 (b, K + 1) (by simp)
      refine ⟨(w1 + w2, K) ::ₘ (a, d1) ::ₘ (b, d2) ::ₘ L2, K + 1, ⟨?_, ?_⟩, by simp, ?_⟩
      · intro p hp
        rcases Multiset.mem_cons.1 hp with rfl | hp
        · simp
        · rcases Multiset.mem_cons.1 hp with rfl | hp
          · exact hd1
          · rcases Multiset.mem_cons.1 hp with rfl | hp
            · exact hd2
            · exact hb0 p (by simp [hp])
      · rw [kraft_cons, kraft_cons, kraft_cons]
        rw [kraft_cons, kraft_cons] at hk
        simp only [hKK, pow_one]
        simp only [Nat.sub_self, pow_zero] at hk
        omega
      · simp only [wcost_cons]
        push_cast
        have hda : (0 : Int) ≤ ((K : Int) + 1 - d1) := by
          have : (d1 : Int) ≤ K + 1 := by exact_mod_cast hd1
          linarith
        have hdb : (0 : Int) ≤ ((K : Int) + 1 - d2) := by
          have : (d2 : Int) ≤ K + 1 := by exact_mod_cast hd2
          linarith
        nlinarith [mul_nonneg (sub_nonneg.2 (le_trans h12 ha)) hda,
          mul_nonneg (sub_nonneg.2 hb') hdb]

/-! ## `buildTree` returns an optimal tree -/

theorem wrapInt_of_small (x : Int) (h0 : 0 ≤ x) (h1 : x ≤ 2147483647) : wrapInt x = x := by
  unfold wrapInt
  omega

/-- While the frequencies of the nodes of the queue are non-negative and add up
to at most `2 ^ 31 - 1`, the sum in the constructor of `InternalNode` does not
wrap, and the queue after the merge is of the same kind. -/
theorem merge_small (q q2 q3 : List huffmanNode) (x y : huffmanNode)
    (hp : List.Perm q (x :: y :: q2)) (hp3 : List.Perm q3 (mkInternal x y :: q2))
    (hnn : ∀ t ∈ q, 0 ≤ t.frq) (hsum : (q.map frq).sum ≤ 2147483647) :
    mkInternal x y = InternalNode (x.frq + y.frq) x y ∧
      (∀ t ∈ q3, 0 ≤ t.frq) ∧ (q3.map frq).sum ≤ 2147483647 := by
  have hs : (q.map frq).sum = x.frq + (y.frq + (q2.map frq).sum) := by
    rw [(hp.map frq).sum_eq]
    simp
  have hx0 : 0 ≤ x.frq := hnn x (hp.mem_iff.2 (List.mem_cons_self _ _))
  have hy0 : 0 ≤ y.frq :=
    hnn y (hp.mem_iff.2 (List.mem_cons_of_mem _ (List.mem_cons_self _ _)))
  have h20 : 0 ≤ (q2.map frq).sum := by
    apply List.sum_nonneg
    intro z hz
    obtain ⟨t, ht, rfl⟩ := List.mem_map.1 hz
    exact hnn t (hp.mem_iff.2 (List.mem_cons_of_mem _ (List.mem_cons_of_mem _ ht)))
  have hmk : mkInternal x y = InternalNode (x.frq + y.frq) x y := by
    unfold mkInternal
    rw [wrapInt_of_small _ (by linarith) (by linarith)]
  refine ⟨hmk, ?_, ?_⟩
  · intro t ht
    rcases List.mem_cons.1 (hp3.mem_iff.1 ht) with rfl | ht2
    · rw [hmk]
      show 0 ≤ x.frq + y.frq
      linarith
    · exact hnn t (hp.mem_iff.2 (List.mem_cons_of_mem _ (List.mem_cons_of_mem _ ht2)))
  · rw [(hp3.map frq).sum_eq, hmk]
    simp only [List.map_cons, List.sum_cons]
    show x.frq + y.frq + (q2.map frq).sum ≤ 2147483647
    linarith

theorem leafSum_mkInternal (x y : huffmanNode) :
    leafSum (mkInternal x y) = leafSum x + leafSum y := by
  simp [mkInternal, leafSum_internal]

theorem costFrom_mkInternal (x y : huffmanNode) :
    costFrom 0 (mkInternal x y) =
      costFrom 0 x + costFrom 0 y + (leafSum x + leafSum y) := by
  simp only [mkInternal, costFrom, costFrom_succ]
  ring

theorem kraftAt_singleton (D : Nat) (a : Int × Nat) (h : KraftAt D {a}) : a.2 = 0 := by
  obtain ⟨hb, hk⟩ := h
  have ha : a.2 ≤ D := hb a (Multiset.mem_singleton_self a)
  simp only [kraft, Multiset.map_singleton, Multiset.sum_singleton] at hk
  have := Nat.pow_right_injective (Nat.le_refl 2) hk
  omega

/-- The merge loop on a heap of nodes whose frequencies are the sums of their
leaves, are non-negative and add up to at most `2 ^ 31 - 1`: the tree it
returns weighs no more than the nodes of the queue
together with any arrangement of their frequencies at the depths of a binary
tree. -/
theorem mergeLoop_optimal (fuel : Nat) (q : List huffmanNode) (hne : q ≠ [])
    (hf : q.length ≤ fuel) (H : IsHeap q q.length) (hcons : ∀ t ∈ q, t.frq = leafSum t)
    (hnn : ∀ t ∈ q, 0 ≤ t.frq) (hsum : (q.map frq).sum ≤ 2147483647)
    (L : Multiset (Int × Nat)) (D : Nat) (hK : KraftAt D L)
    (hw : L.map Prod.fst = ((q.map frq : List Int) : Multiset Int)) :
    ∃ t, mergeLoop fuel q = some t ∧
      costFrom 0 t ≤ (q.map (costFrom 0)).sum + wcost L := by
  induction fuel generalizing q L D with
  | zero =>
    have := List.length_pos.2 hne
    omega
  | succ n ih =>
    by_cases h1 : q.length = 1
    · obtain ⟨x, rfl⟩ : ∃ x, q = [x] := List.length_eq_one.1 h1
      refine ⟨x, by simp [mergeLoop, pqTop], ?_⟩
      have hw' : L.map Prod.fst = {x.frq} := by simpa using hw
      obtain ⟨a, rfl, _⟩ := Multiset.map_eq_singleton.1 hw'
      have h0 := kraftAt_singleton D a hK
      simp [wcost, h0]
    · have h2 : 2 ≤ q.length := by
        have := List.length_pos.2 hne
        omega
      obtain ⟨x, y, q2, q3, hp, hp3, heq, hh3, hxy, hy2⟩ := mergeLoop_step_heap n q h2 H
      have hl3 : q3.length + 1 = q.length := by
        have := hp.length_eq
        have := hp3.length_eq
        simp at *
        omega
      have hne3 : q3 ≠ [] := by
        intro h
        have := hp3.length_eq
        simp [h] at this
      have hxq : x ∈ q := hp.mem_iff.2 (List.mem_cons_self _ _)
      have hyq : y ∈ q := hp.mem_iff.2 (List.mem_cons_of_mem _ (List.mem_cons_self _ _))
      have hwq : L.map Prod.fst =
          x.frq ::ₘ y.frq ::ₘ (((q2.map frq : List Int)) : Multiset Int) := by
        rw [hw]
        have := hp.map frq
        simpa using Multiset.coe_eq_coe.2 this
      obtain ⟨L', D', hK', hw', hcost⟩ := exchange L D x.frq y.frq _ hK hwq hxy (by
        intro z hz
        simp only [Multiset.mem_coe, List.mem_map] at hz
        obtain ⟨t, ht, rfl⟩ := hz
        exact hy2 t ht)
      obtain ⟨hmk, hnn3, hsum3⟩ := merge_small q q2 q3 x y hp hp3 hnn hsum
      have hfrq : (mkInternal x y).frq = x.frq + y.frq := by rw [hmk]; rfl
      have hcons3 : ∀ t ∈ q3, t.frq = leafSum t := by
        intro t ht
        rcases List.mem_cons.1 (hp3.mem_iff.1 ht) with rfl | ht2
        · rw [hfrq, leafSum_mkInternal, hcons x hxq, hcons y hyq]
        · exact hcons t (hp.mem_iff.2
            (List.mem_cons_of_mem _ (List.mem_cons_of_mem _ ht2)))
      have hw3 : L'.map Prod.fst = ((q3.map frq : List Int) : Multiset Int) := by
        rw [hw']
        have := hp3.map frq
        have h3 := Multiset.coe_eq_coe.2 this
        rw [h3]
        simp [hfrq]
      obtain ⟨t, ht, hct⟩ := ih q3 hne3 (by omega) hh3 hcons3 hnn3 hsum3 L' D' hK' hw3
      refine ⟨t, by rw [heq, ht], ?_⟩
      have hs3 : (q3.map (costFrom 0)).sum =
          costFrom 0 (mkInternal x y) + (q2.map (costFrom 0)).sum := by
        rw [(hp3.map (costFrom 0)).sum_eq]
        simp
      have hs : (q.map (costFrom 0)).sum =
          costFrom 0 x + (costFrom 0 y + (q2.map (costFrom 0)).sum) := by
        rw [(hp.map (costFrom 0)).sum_eq]
        simp
      rw [hs3, costFrom_mkInternal, ← hcons x hxq, ← hcons y hyq] at hct
      rw [hs]
      linarith

/-- For a table whose counts are non-negative and add up to at most
`2 ^ 31 - 1`, the tree `buildTree` returns weighs no more than any arrangement
of the frequencies of the table at the depths of a binary tree. -/
theorem buildTree_le_wcost (m : CharMap Int) (hne : m ≠ [])
    (hnn : ∀ e ∈ m, 0 ≤ e.2) (hsum : (values m).sum ≤ 2147483647)
    (L : Multiset (Int × Nat)) (D : Nat) (hK : KraftAt D L)
    (hw : L.map Prod.fst = (((m.map Prod.snd : List Int)) : Multiset Int)) :
    ∃ t, buildTree m = some t ∧ costFrom 0 t ≤ wcost L := by
  have hp := pushLeaves_perm m []
  rw [List.append_nil] at hp
  have hq : pushLeaves m [] ≠ [] := by
    intro h
    have := hp.length_eq
    rw [h] at this
    simp at this
    exact hne (List.length_eq_zero.1 this.symm)
  have hH : IsHeap (pushLeaves m []) (pushLeaves m []).length :=
    pushLeaves_heap m [] (fun j _ hj => by simp at hj)
  have hleaf : ∀ x ∈ pushLeaves m [], ∃ c f, x = LeafNode c f := by
    intro x hx
    obtain ⟨i, _, rfl⟩ := List.mem_map.1 (hp.mem_iff.1 hx)
    exact ⟨i.1, i.2, rfl⟩
  have hcons : ∀ x ∈ pushLeaves m [], x.frq = leafSum x := by
    intro x hx
    obtain ⟨c, f, rfl⟩ := hleaf x hx
    simp [frq, leafSum, leaves]
  have hzero : ((pushLeaves m []).map (costFrom 0)).sum = 0 := by
    apply List.sum_eq_zero
    intro z hz
    obtain ⟨x, hx, rfl⟩ := List.mem_map.1 hz
    obtain ⟨c, f, rfl⟩ := hleaf x hx
    simp [costFrom]
  have hw' : L.map Prod.fst =
      ((((pushLeaves m []).map frq : List Int)) : Multiset Int) := by
    rw [hw]
    apply Multiset.coe_eq_coe.2
    have h1 := (hp.map frq).symm
    have h2 : (m.map (fun i => LeafNode i.1 i.2)).map frq = m.map Prod.snd := by
      rw [List.map_map]
      rfl
    rw [h2] at h1
    exact h1
  have hfrqs : List.Perm ((pushLeaves m []).map frq) (m.map Prod.snd) := by
    have h1 := hp.map frq
    have h2 : (m.map (fun i => LeafNode i.1 i.2)).map frq = m.map Prod.snd := by
      rw [List.map_map]
      rfl
    rw [h2] at h1
    exact h1
  have hnn' : ∀ x ∈ pushLeaves m [], 0 ≤ x.frq := by
    intro x hx
    obtain ⟨i, hi, rfl⟩ := List.mem_map.1 (hp.mem_iff.1 hx)
    exact hnn i hi
  have hsum' : ((pushLeaves m []).map frq).sum ≤ 2147483647 := by
    rw [hfrqs.sum_eq]
    exact hsum
  obtain ⟨t, ht, hc⟩ := mergeLoop_optimal _ (pushLeaves m []) hq (Nat.le_refl _) hH hcons
    hnn' hsum' L D hK hw'
  rw [hzero, zero_add] at hc
  exact ⟨t, ht, hc⟩

/-- C3, with the proviso the code needs: for every non-empty frequency table
whose counts are non-negative and add up to at most `2 ^ 31 - 1` (so that no
sum of frequencies overflows `int`), `buildTree` returns a tree whose leaves
are the entries of the table and whose weighted path length (the sum over the
leaves of frequency times depth) is at most that of every tree whose leaves
are the entries of the table. -/
theorem buildTree_optimal (m : CharMap Int) (hne : m ≠ [])
    (hnn : ∀ e ∈ m, 0 ≤ e.2) (hsum : (values m).sum ≤ 2147483647) :
    ∃ t, buildTree m = some t ∧ List.Perm (leaves t) m ∧
      ∀ t', List.Perm (leaves t') m → weightedPathLength t ≤ weightedPathLength t' := by
  obtain ⟨t, ht, hpt⟩ := buildTree_leaves m hne
  refine ⟨t, ht, hpt, fun t' hp' => ?_⟩
  have hw : (leafDepths 0 t').map Prod.fst =
      (((m.map Prod.snd : List Int)) : Multiset Int) := by
    rw [weights_leafDepths]
    exact Multiset.coe_eq_coe.2 (hp'.map Prod.snd)
  obtain ⟨t2, ht2, hc⟩ := buildTree_le_wcost m hne hnn hsum (leafDepths 0 t') (height t')
    (kraftAt_leafDepths t') hw
  have : t2 = t := by
    rw [ht] at ht2
    exact (Option.some.inj ht2).symm
  subst this
  rw [← costFrom_eq_wcost] at hc
  exact hc

theorem buildTree_optimal_witness :
    ∃ t, buildTree [(97, 5), (98, 1), (99, 1), (100, 2)] = some t ∧
      weightedPathLength t ≤ weightedPathLength
        (InternalNode 9 (InternalNode 6 (LeafNode 97 5) (LeafNode 98 1))
          (InternalNode 3 (LeafNode 99 1) (LeafNode 100 2))) := by
  obtain ⟨t, ht, _, hopt⟩ := buildTree_optimal [(97, 5), (98, 1), (99, 1), (100, 2)]
    (by decide) (by decide) (by decide)
  exact ⟨t, ht, hopt _ (by decide)⟩

/-- C3 fails as stated: for the table `{a:1073741823, b:1073741823,
c:1073741824, d:1073741824, e:1073741829}`, whose counts each fit an `int`,
the sums of frequencies wrap, and the tree `buildTree` returns has weighted
path length 12884901894, while the tree `((a b) c) (d e)` over the same leaves
has 12884901892. -/
theorem buildTree_overflow_not_optimal :
    buildTree [(97, 1073741823), (98, 1073741823), (99, 1073741824), (100, 1073741824),
        (101, 1073741829)] =
      some (InternalNode 1073741827
        (InternalNode (-1073741819)
          (InternalNode (-2147483648) (LeafNode 99 1073741824) (LeafNode 100 1073741824))
          (LeafNode 101 1073741829))
        (InternalNode 2147483646 (LeafNode 97 1073741823) (LeafNode 98 1073741823))) ∧
    weightedPathLength (InternalNode 1073741827
        (InternalNode (-1073741819)
          (InternalNode (-2147483648) (LeafNode 99 1073741824) (LeafNode 100 1073741824))
          (LeafNode 101 1073741829))
        (InternalNode 2147483646 (LeafNode 97 1073741823) (LeafNode 98 1073741823))) =
      12884901894 ∧
    List.Perm
      (leaves (InternalNode 5368709123
        (InternalNode 3221225470
          (InternalNode 2147483646 (LeafNode 97 1073741823) (LeafNode 98 1073741823))
          (LeafNode 99 1073741824))
        (InternalNode 2147483653 (LeafNode 100 1073741824) (LeafNode 101 1073741829))))
      [(97, 1073741823), (98, 1073741823), (99, 1073741824), (100, 1073741824),
        (101, 1073741829)] ∧
    weightedPathLength (InternalNode 5368709123
        (InternalNode 3221225470
          (InternalNode 2147483646 (LeafNode 97 1073741823) (LeafNode 98 1073741823))
          (LeafNode 99 1073741824))
        (InternalNode 2147483653 (LeafNode 100 1073741824) (LeafNode 101 1073741829))) =
      12884901892 := by
  decide

/-! ## The leaves of the returned tree -/

/-- C11: for every non-empty frequency table (keys strictly ascending, as in a
`std::map`), `buildTree` returns a tree whose leaves are the entries of the
table: the list of (symbol, frequency) pairs at the leaves is a rearrangement
of the table and has no repetition, a pair is at a leaf exactly when it is an
entry of the table, and no symbol is at two leaves. -/
theorem buildTree_leaves_bijective (m : CharMap Int) (hne : m ≠ []) (hwf : CharMap.WF m) :
    ∃ t, buildTree m = some t ∧ List.Perm (leaves t) m ∧
      (leaves t).Nodup ∧ (∀ e, e ∈ leaves t ↔ e ∈ m) ∧
      (leafSyms t).Nodup ∧ (leaves t).length = m.length := by
  obtain ⟨t, ht, hp⟩ := buildTree_leaves m hne
  have hnd : (leafSyms t).Nodup :=
    (leafSyms_perm_keys m t hp).symm.nodup (nodup_keys_of_wf m hwf)
  exact ⟨t, ht, hp, List.Nodup.of_map _ hnd, fun e => hp.mem_iff, hnd, hp.length_eq⟩

theorem buildTree_leaves_bijective_witness :
    ∃ t, buildTree [(97, 3), (98, 1), (99, 2)] = some t ∧
      List.Perm (leaves t) [(97, 3), (98, 1), (99, 2)] ∧ (leafSyms t).Nodup := by
  obtain ⟨t, ht, hp, _, _, hnd, _⟩ :=
    buildTree_leaves_bijective [(97, 3), (98, 1), (99, 2)] (by decide)
      (by unfold CharMap.WF; decide)
  exact ⟨t, ht, hp, hnd⟩

/-! ## The iterations of the merge loop -/

/-- The merge loop runs its body `mergeStep` while the size of the queue is
not 1. -/
theorem mergeLoop_succ (fuel : Nat) (q : List huffmanNode) (h1 : q.length ≠ 1)
    (x y : huffmanNode) (q2 q3 : List huffmanNode) (hs : mergeStep q = some (x, y, q2, q3)) :
    mergeLoop (fuel + 1) q = mergeLoop fuel q3 := by
  unfold mergeStep at hs
  simp only [mergeLoop, h1, ne_eq, not_false_eq_true, if_true]
  cases ht : pqTop q with
  | none => simp [ht] at hs
  | some a =>
    cases hp : pqPop myFreqComp q with
    | none => simp [ht, hp] at hs
    | some q1 =>
      simp only [ht, hp] at hs ⊢
      cases ht1 : pqTop q1 with
      | none => simp [ht1] at hs
      | some b =>
        cases hp1 : pqPop myFreqComp q1 with
        | none => simp [ht1, hp1] at hs
        | some q2' =>
          simp only [ht1, hp1, Option.some.injEq, Prod.mk.injEq] at hs ⊢
          obtain ⟨rfl, rfl, rfl, rfl⟩ := hs
          rfl

/-- One run of the loop body on a heap of at least two nodes: the two nodes
taken out have the two least frequencies, the first no more than the second,
their parent has the first as left and the second as right child, and the
queue is a heap again afterwards. -/
theorem mergeStep_heap (q : List huffmanNode) (h2 : 2 ≤ q.length) (H : IsHeap q q.length) :
    ∃ x y q2, mergeStep q =
        some (x, y, q2, pqPush myFreqComp q2 (InternalNode (wrapInt (x.frq + y.frq)) x y)) ∧
      List.Perm q (x :: y :: q2) ∧ x.frq ≤ y.frq ∧ (∀ z ∈ q2, y.frq ≤ z.frq) ∧
      IsHeap (pqPush myFreqComp q2 (InternalNode (wrapInt (x.frq + y.frq)) x y))
        (pqPush myFreqComp q2 (InternalNode (wrapInt (x.frq + y.frq)) x y)).length := by
  obtain ⟨x, rest, rfl⟩ : ∃ x rest, q = x :: rest := by
    cases q with
    | nil => simp at h2
    | cons x rest => exact ⟨x, rest, rfl⟩
  obtain ⟨q1, hq1, hp1, hh1, hm1⟩ := pqPop_heap x rest (by simpa using H)
  obtain ⟨y, rest1, rfl⟩ : ∃ y rest1, q1 = y :: rest1 := by
    cases q1 with
    | nil =>
      have := hp1.length_eq
      simp at this h2
      omega
    | cons y rest1 => exact ⟨y, rest1, rfl⟩
  obtain ⟨q2, hq2, hp2, hh2, hm2⟩ := pqPop_heap y rest1 (by simpa using hh1)
  have hl3 : (pqPush myFreqComp q2 (InternalNode (wrapInt (x.frq + y.frq)) x y)).length =
      q2.length + 1 := by
    simpa using (pqPush_perm myFreqComp q2 (InternalNode (wrapInt (x.frq + y.frq)) x y)).length_eq
  refine ⟨x, y, q2, ?_, ?_, ?_, ?_, ?_⟩
  · simp only [mergeStep, pqTop, List.head?_cons, hq1, hq2, mkInternal]
  · exact (hp1.symm.trans (hp2.symm.cons y)).cons x
  · exact hm1 y (hp1.mem_iff.1 (List.mem_cons_self _ _))
  · intro z hz
    exact hm2 z (hp2.mem_iff.1 hz)
  · rw [hl3]
    exact pqPush_heap q2 _ hh2

/-- Every queue the merge loop goes through on a non-empty table is a
non-empty heap. -/
theorem loopState_heap (m : CharMap Int) (hne : m ≠ []) (q : List huffmanNode)
    (hq : LoopState m q) : q ≠ [] ∧ IsHeap q q.length := by
  induction hq with
  | init =>
    refine ⟨?_, pushLeaves_heap m [] (fun j _ hj => by simp at hj)⟩
    intro h
    have := (pushLeaves_perm m []).length_eq
    rw [h] at this
    simp at this
    exact hne (List.length_eq_zero.1 this.symm)
  | next q x y q2 q3 _ h1 hs ih =>
    have h2 : 2 ≤ q.length := by
      have := List.length_pos.2 ih.1
      omega
    obtain ⟨x', y', q2', hs', _, _, _, hh⟩ := mergeStep_heap q h2 ih.2
    rw [hs] at hs'
    simp only [Option.some.injEq, Prod.mk.injEq] at hs'
    obtain ⟨rfl, rfl, rfl, rfl⟩ := hs'
    refine ⟨?_, hh⟩
    intro h
    have := (pqPush_perm myFreqComp q2 (InternalNode (wrapInt (x.frq + y.frq)) x y)).length_eq
    rw [h] at this
    simp at this

/-- A property of nodes that holds for the nodes of a heap and passes to the
parent of two nodes, the left one of no greater frequency than the right one,
holds for the tree the merge loop returns. -/
theorem mergeLoop_preserves (P : huffmanNode → Prop)
    (hP : ∀ x y, P x → P y → x.frq ≤ y.frq → P (mkInternal x y))
    (fuel : Nat) (q : List huffmanNode) (hne : q ≠ []) (hf : q.length ≤ fuel)
    (H : IsHeap q q.length) (hq : ∀ z ∈ q, P z) :
    ∃ t, mergeLoop fuel q = some t ∧ P t := by
  induction fuel generalizing q with
  | zero =>
    have := List.length_pos.2 hne
    omega
  | succ n ih =>
    by_cases h1 : q.length = 1
    · obtain ⟨x, rfl⟩ : ∃ x, q = [x] := List.length_eq_one.1 h1
      exact ⟨x, by simp [mergeLoop, pqTop], hq x (List.mem_singleton_self x)⟩
    · have h2 : 2 ≤ q.length := by
        have := List.length_pos.2 hne
        omega
      obtain ⟨x, y, q2, q3, hp, hp3, heq, hh3, hxy, _⟩ := mergeLoop_step_heap n q h2 H
      have hl3 : q3.length + 1 = q.length := by
        have := hp.length_eq
        have := hp3.length_eq
        simp at *
        omega
      have hne3 : q3 ≠ [] := by
        intro h
        have := hp3.length_eq
        simp [h] at this
      have hq3 : ∀ z ∈ q3, P z := by
        intro z hz
        rcases List.mem_cons.1 (hp3.mem_iff.1 hz) with rfl | hz2
        · exact hP x y (hq x (hp.mem_iff.2 (List.mem_cons_self _ _)))
            (hq y (hp.mem_iff.2 (List.mem_cons_of_mem _ (List.mem_cons_self _ _)))) hxy
        · exact hq z (hp.mem_iff.2 (List.mem_cons_of_mem _ (List.mem_cons_of_mem _ hz2)))
      obtain ⟨t, ht, hPt⟩ := ih q3 hne3 (by omega) hh3 hq3
      exact ⟨t, by rw [heq, ht], hPt⟩

/-- A property that holds for leaves and passes to the parent of two nodes,
the left one of no greater frequency than the right one, holds for the tree
`buildTree` returns on a non-empty table. -/
theorem buildTree_preserves (P : huffmanNode → Prop)
    (hleaf : ∀ c f, P (LeafNode c f))
    (hP : ∀ x y, P x → P y → x.frq ≤ y.frq → P (mkInternal x y))
    (m : CharMap Int) (hne : m ≠ []) :
    ∃ t, buildTree m = some t ∧ P t := by
  have hp := pushLeaves_perm m []
  rw [List.append_nil] at hp
  have hq : pushLeaves m [] ≠ [] := by
    intro h
    have := hp.length_eq
    rw [h] at this
    simp at this
    exact hne (List.length_eq_zero.1 this.symm)
  have hH : IsHeap (pushLeaves m []) (pushLeaves m []).length :=
    pushLeaves_heap m [] (fun j _ hj => by simp at hj)
  have hall : ∀ z ∈ pushLeaves m [], P z := by
    intro z hz
    obtain ⟨i, _, rfl⟩ := List.mem_map.1 (hp.mem_iff.1 hz)
    exact hleaf i.1 i.2
  exact mergeLoop_preserves P hP _ (pushLeaves m []) hq (Nat.le_refl _) hH hall

/-- C15: on a non-empty table, at every iteration of the merge loop of
`buildTree` (every queue the loop reaches whose size is not 1) the two nodes
removed are two nodes of the queue of least frequency: the first has at most
the frequency of the second, and every node left in the queue has at least the
frequency of both; the node pushed has the first as left and the second as
right child (and their `int` sum as frequency). In the tree returned every internal node's left child has at most
the frequency of its right child. -/
theorem mergeLoop_two_least (m : CharMap Int) (hne : m ≠ []) :
    (∀ q, LoopState m q → q.length ≠ 1 →
      ∃ x y q2,
        mergeStep q =
          some (x, y, q2, pqPush myFreqComp q2 (InternalNode (wrapInt (x.frq + y.frq)) x y)) ∧
        List.Perm q (x :: y :: q2) ∧ x.frq ≤ y.frq ∧
        (∀ z ∈ q2, x.frq ≤ z.frq ∧ y.frq ≤ z.frq) ∧
        ∀ fuel, mergeLoop (fuel + 1) q =
          mergeLoop fuel (pqPush myFreqComp q2 (InternalNode (wrapInt (x.frq + y.frq)) x y))) ∧
    ∃ t, buildTree m = some t ∧ LeftLE t := by
  constructor
  · intro q hq h1
    obtain ⟨hqne, hH⟩ := loopState_heap m hne q hq
    have h2 : 2 ≤ q.length := by
      have := List.length_pos.2 hqne
      omega
    obtain ⟨x, y, q2, hs, hp, hxy, hy2, _⟩ := mergeStep_heap q h2 hH
    exact ⟨x, y, q2, hs, hp, hxy, fun z hz => ⟨le_trans hxy (hy2 z hz), hy2 z hz⟩,
      fun fuel => mergeLoop_succ fuel q h1 x y q2 _ hs⟩
  · exact buildTree_preserves LeftLE (fun _ _ => trivial)
      (fun x y hx hy hxy => ⟨hxy, hx, hy⟩) m hne

theorem mergeLoop_two_least_witness :
    ∃ t, buildTree [(97, 3), (98, 1), (99, 2)] = some t ∧ LeftLE t :=
  (mergeLoop_two_least [(97, 3), (98, 1), (99, 2)] (by decide)).2

theorem frq_eq_leafSum_of_sumOK (t : huffmanNode) (h : SumOK t) : t.frq = leafSum t := by
  induction t with
  | LeafNode c f => simp [frq, leafSum, leaves]
  | InternalNode f l r ihl ihr =>
    obtain ⟨h1, h2, h3⟩ := h
    rw [leafSum_internal, ← ihl h2, ← ihr h3]
    exact h1

/-- While the frequencies of the queue are non-negative and add up to at most
`2 ^ 31 - 1`, a property of nodes that passes to the parent of two nodes whose
frequency is the exact sum of theirs holds for the tree the merge loop
returns. -/
theorem mergeLoop_preserves_small (P : huffmanNode → Prop)
    (hP : ∀ x y, P x → P y → P (InternalNode (x.frq + y.frq) x y))
    (fuel : Nat) (q : List huffmanNode) (hne : q ≠ []) (hf : q.length ≤ fuel)
    (hq : ∀ z ∈ q, P z) (hnn : ∀ t ∈ q, 0 ≤ t.frq)
    (hsum : (q.map frq).sum ≤ 2147483647) :
    ∃ t, mergeLoop fuel q = some t ∧ P t := by
  induction fuel generalizing q with
  | zero =>
    have := List.length_pos.2 hne
    omega
  | succ n ih =>
    by_cases h1 : q.length = 1
    · obtain ⟨x, rfl⟩ : ∃ x, q = [x] := List.length_eq_one.1 h1
      exact ⟨x, by simp [mergeLoop, pqTop], hq x (List.mem_singleton_self x)⟩
    · have h2 : 2 ≤ q.length := by
        have := List.length_pos.2 hne
        omega
      obtain ⟨x, y, q2, q3, hp, hp3, heq⟩ := mergeLoop_step n q h2
      obtain ⟨hmk, hnn3, hsum3⟩ := merge_small q q2 q3 x y hp hp3 hnn hsum
      have hl3 : q3.length + 1 = q.length := by
        have := hp.length_eq
        have := hp3.length_eq
        simp at *
        omega
      have hne3 : q3 ≠ [] := by
        intro h
        have := hp3.length_eq
        simp [h] at this
      have hq3 : ∀ z ∈ q3, P z := by
        intro z hz
        rcases List.mem_cons.1 (hp3.mem_iff.1 hz) with rfl | hz2
        · rw [hmk]
          exact hP x y (hq x (hp.mem_iff.2 (List.mem_cons_self _ _)))
            (hq y (hp.mem_iff.2 (List.mem_cons_of_mem _ (List.mem_cons_self _ _))))
        · exact hq z (hp.mem_iff.2 (List.mem_cons_of_mem _ (List.mem_cons_of_mem _ hz2)))
      obtain ⟨t, ht, hPt⟩ := ih q3 hne3 (by omega) hq3 hnn3 hsum3
      exact ⟨t, by rw [heq, ht], hPt⟩

/-- C16: for every non-empty frequency table whose counts are non-negative and
add up to at most `2 ^ 31 - 1` (counts small enough that the sums do not
overflow `int`), every internal node of the tree `buildTree` returns has the
sum of its two children's frequencies as its frequency, and the frequency of
the root is the sum of all counts of the table. -/
theorem buildTree_sums (m : CharMap Int) (hne : m ≠ [])
    (hnn : ∀ e ∈ m, 0 ≤ e.2) (hsum : (values m).sum ≤ 2147483647) :
    ∃ t, buildTree m = some t ∧ SumOK t ∧ t.frq = (values m).sum := by
  have hpq := pushLeaves_perm m []
  rw [List.append_nil] at hpq
  have hq : pushLeaves m [] ≠ [] := by
    intro h
    have := hpq.length_eq
    rw [h] at this
    simp at this
    exact hne (List.length_eq_zero.1 this.symm)
  have hall : ∀ z ∈ pushLeaves m [], SumOK z := by
    intro z hz
    obtain ⟨i, _, rfl⟩ := List.mem_map.1 (hpq.mem_iff.1 hz)
    trivial
  have hnn' : ∀ x ∈ pushLeaves m [], 0 ≤ x.frq := by
    intro x hx
    obtain ⟨i, hi, rfl⟩ := List.mem_map.1 (hpq.mem_iff.1 hx)
    exact hnn i hi
  have hsum' : ((pushLeaves m []).map frq).sum ≤ 2147483647 := by
    have h1 := hpq.map frq
    have h2 : (m.map (fun i => LeafNode i.1 i.2)).map frq = m.map Prod.snd := by
      rw [List.map_map]
      rfl
    rw [h2] at h1
    rw [h1.sum_eq]
    exact hsum
  obtain ⟨t, ht, hs⟩ := mergeLoop_preserves_small SumOK
    (fun x y hx hy => ⟨rfl, hx, hy⟩) _ (pushLeaves m []) hq (Nat.le_refl _) hall hnn' hsum'
  obtain ⟨t', ht', hp⟩ := buildTree_leaves m hne
  have : t' = t := by
    unfold buildTree at ht'
    simp only at ht'
    rw [ht] at ht'
    exact (Option.some.inj ht').symm
  subst this
  refine ⟨t', ht, hs, ?_⟩
  rw [frq_eq_leafSum_of_sumOK t' hs]
  exact (hp.map Prod.snd).sum_eq

theorem buildTree_sums_witness :
    ∃ t, buildTree [(97, 3), (98, 1), (99, 2)] = some t ∧ SumOK t ∧ t.frq = 6 := by
  obtain ⟨t, ht, hs, hf⟩ := buildTree_sums [(97, 3), (98, 1), (99, 2)] (by decide)
    (by decide) (by decide)
  exact ⟨t, ht, hs, by rw [hf]; decide⟩

/-! ## The final byte of `encodeFile` -/

theorem flush_aligned (s : EncState) (bits : List Bool) (h : EncInv s bits)
    (h8 : bits.length % 8 = 0) :
    (flush s).out = s.out ++ [0] ∧ bytesBits s.out = bits := by
  obtain ⟨pending, hlen, hcnt, hval, hbits, _⟩ := h
  have hl : bits.length = 8 * s.out.length + s.cnt := by
    rw [← hbits, List.length_append, length_bytesBits, hlen]
  have hc0 : s.cnt = 0 := by omega
  have hp : pending = [] := List.length_eq_zero.1 (by rw [hlen, hc0])
  subst hp
  have hbc : s.byteCombination = 0 := by rw [hval]; rfl
  refine ⟨?_, by simpa using hbits⟩
  unfold flush
  simp [hbc, hc0]

/-- When the code bits fill whole bytes, `encodeFile` writes those bytes and
one more byte, zero. -/
theorem encodeFile_aligned (codeMapping : CharMap (List Bool)) (reads : List (List Sym))
    (hz : ∀ b ∈ reads, (0 : Sym) ∈ b)
    (h8 : totalCodeBits codeMapping (processed reads) % 8 = 0) :
    ∃ full, encodeFile codeMapping reads = some (full ++ [0]) ∧
      bytesBits full = concatCodes codeMapping (processed reads) := by
  have h0 : EncInv { codeMapping := codeMapping, byteCombination := 0, cnt := 0, out := [] }
      [] := ⟨[], rfl, Nat.succ_pos 7, rfl, rfl, by simp⟩
  have h1 := (foldl_encodeSymbol_inv (processed reads) _ [] h0).1
  rw [List.nil_append] at h1
  have h2 := flush_aligned _ _ h1 (by rw [length_concatCodes]; exact h8)
  refine ⟨_, ?_, h2.2⟩
  unfold encodeFile
  rw [encodeChunks_eq reads _ hz]
  simp only
  rw [h2.1]

/-- C18: when every buffer read holds a zero byte, `encodeFile` writes exactly
`total_code_bits / 8 + 1` bytes (integer division); when `total_code_bits` is
a multiple of 8 (0 included) the output is the bytes holding the code bits
followed by one more byte `0x00`. -/
theorem encodeFile_extra_byte (codeMapping : CharMap (List Bool))
    (reads : List (List Sym)) (hz : ∀ b ∈ reads, (0 : Sym) ∈ b) :
    ∃ out, encodeFile codeMapping reads = some out ∧
      out.length = totalCodeBits codeMapping (processed reads) / 8 + 1 ∧
      (totalCodeBits codeMapping (processed reads) % 8 = 0 →
        ∃ full, out = full ++ [0] ∧
          bytesBits full = concatCodes codeMapping (processed reads)) := by
  obtain ⟨out, h1, _, h3, _⟩ := encodeFile_eq codeMapping reads hz
  refine ⟨out, h1, h3, fun h8 => ?_⟩
  obtain ⟨full, hf, hb⟩ := encodeFile_aligned codeMapping reads hz h8
  rw [h1] at hf
  exact ⟨full, Option.some.inj hf, hb⟩

theorem encodeFile_extra_byte_witness :
    ∃ out, encodeFile [(97, [false]), (98, [true])]
        [[97, 98, 97, 98, 97, 98, 97, 98, 0]] = some out ∧ out.length = 2 ∧
      ∃ full, out = full ++ [0] := by
  obtain ⟨out, h1, h2, h3⟩ := encodeFile_extra_byte [(97, [false]), (98, [true])]
    [[97, 98, 97, 98, 97, 98, 97, 98, 0]] (by decide)
  obtain ⟨full, hf, _⟩ := h3 (by decide)
  exact ⟨out, h1, by rw [h2]; decide, full, hf⟩

/-! ## An input of one single symbol -/

theorem incr_singleton (c : Sym) (j : Int) : incr [(c, j)] c = [(c, j + 1)] := by
  simp [incr, CharMap.subscript, CharMap.find, CharMap.assign]

theorem foldl_incr_replicate (c : Sym) (n : Nat) (j : Int) :
    (List.replicate n c).foldl incr [(c, j)] = [(c, j + n)] := by
  induction n generalizing j with
  | zero => simp
  | succ k ih =>
    rw [List.replicate_succ, List.foldl_cons, incr_singleton, ih]
    push_cast
    congr 2
    ring

theorem concatCodes_eq_nil (m : CharMap (List Bool)) (syms : List Sym)
    (h : ∀ c ∈ syms, codeOf m c = []) : concatCodes m syms = [] := by
  induction syms with
  | nil => rfl
  | cons c rest ih =>
    have h1 : concatCodes m (c :: rest) = codeOf m c ++ concatCodes m rest := by
      simp [concatCodes]
    rw [h1, h c (List.mem_cons_self _ _), ih (fun x hx => h x (List.mem_cons_of_mem _ hx))]
    rfl

/-- C19: for an input of `k ≥ 1` occurrences of one symbol `c` (not the
terminator), the frequency table is `{c:k}`, the tree is the lone leaf, the
code stored for `c` is the empty bit sequence, and the output of the
compression is the one byte `0x00`, whatever `k` and `c` are. -/
theorem single_symbol_output (c : Sym) (k : Nat) (rest : List Sym) (hc : c ≠ 0)
    (hk : 1 ≤ k) :
    buildFreqTable [List.replicate k c ++ 0 :: rest] = some [(c, (k : Int))] ∧
      buildTree [(c, (k : Int))] = some (LeafNode c k) ∧
      buildHuffmanCodes [] (some (LeafNode c k)) [] = [(c, [])] ∧
      compression [List.replicate k c ++ 0 :: rest] [List.replicate k c ++ 0 :: rest] =
        some [0] := by
  have hz : ∀ b ∈ [List.replicate k c ++ 0 :: rest], (0 : Sym) ∈ b := by simp
  have hproc : processed [List.replicate k c ++ 0 :: rest] = List.replicate k c := by
    have : beforeZero (List.replicate k c ++ 0 :: rest) = List.replicate k c := by
      unfold beforeZero
      rw [List.takeWhile_append_of_pos (by
        intro a ha
        rw [List.eq_of_mem_replicate ha]
        simpa using hc)]
      simp
    simp [processed, this]
  have hm : buildFreqTable [List.replicate k c ++ 0 :: rest] = some [(c, (k : Int))] := by
    unfold buildFreqTable
    rw [countChunks_eq _ _ hz, hproc]
    obtain ⟨n, rfl⟩ : ∃ n, k = n + 1 := ⟨k - 1, by omega⟩
    rw [List.replicate_succ, List.foldl_cons]
    have h1 : incr [] c = [(c, 1)] := by
      simp [incr, CharMap.subscript, CharMap.find, CharMap.assign]
    rw [h1, foldl_incr_replicate]
    push_cast
    congr 3
    ring
  have ht : buildTree [(c, (k : Int))] = some (LeafNode c k) := by
    simp [buildTree, pushLeaves, pqPush, pushHeap, pushHeapAux, mergeLoop, pqTop]
  have hcodes : buildHuffmanCodes [] (some (LeafNode c k)) [] = [(c, [])] := by
    simp [buildHuffmanCodes, buildHuffmanCodesNode, CharMap.assign]
  refine ⟨hm, ht, hcodes, ?_⟩
  have hcc : concatCodes [(c, [])] (processed [List.replicate k c ++ 0 :: rest]) = [] := by
    apply concatCodes_eq_nil
    intro x hx
    rw [hproc] at hx
    rw [List.eq_of_mem_replicate hx]
    simp [codeOf, CharMap.find]
  have h8 : totalCodeBits [(c, [])] (processed [List.replicate k c ++ 0 :: rest]) % 8 = 0 := by
    rw [← length_concatCodes, hcc]
    rfl
  obtain ⟨full, hf, hb⟩ := encodeFile_aligned [(c, [])] _ hz h8
  have hfull : full = [] := by
    rw [hcc] at hb
    have := congrArg List.length hb
    rw [length_bytesBits] at this
    exact List.length_eq_zero.1 (by simpa using this)
  simp only [compression, hm, ht, hcodes]
  rw [hf, hfull]
  rfl

theorem single_symbol_output_witness :
    compression [[97, 0]] [[97, 0]] = some [0] ∧
      compression [[97, 97, 97, 97, 0]] [[97, 97, 97, 97, 0]] = some [0] :=
  ⟨(single_symbol_output 97 1 [] (by decide) (by decide)).2.2.2,
    (single_symbol_output 97 4 [] (by decide) (by decide)).2.2.2⟩

/-! ## Symbols without an entry in the code table -/

set_option maxRecDepth 8000 in
theorem bitsVal_byteBits : ∀ b < 256, bitsVal (byteBits b) = b := by
  decide

theorem bytesBits_injective (o1 o2 : List Nat) (h1 : ∀ b ∈ o1, b < 256)
    (h2 : ∀ b ∈ o2, b < 256) (h : bytesBits o1 = bytesBits o2) : o1 = o2 := by
  induction o1 generalizing o2 with
  | nil =>
    have := congrArg List.length h
    rw [length_bytesBits, length_bytesBits] at this
    exact (List.length_eq_zero.1 (by simpa using this.symm)).symm
  | cons b r ih =>
    cases o2 with
    | nil =>
      have := congrArg List.length h
      rw [length_bytesBits, length_bytesBits] at this
      simp at this
    | cons b' r' =>
      rw [bytesBits_cons, bytesBits_cons] at h
      obtain ⟨hb, hr⟩ := List.append_inj h (by rw [length_byteBits, length_byteBits])
      have hbb : b = b' := by
        rw [← bitsVal_byteBits b (h1 b (List.mem_cons_self _ _)),
          ← bitsVal_byteBits b' (h2 b' (List.mem_cons_self _ _)), hb]
      rw [hbb, ih r' (fun x hx => h1 x (List.mem_cons_of_mem _ hx))
        (fun x hx => h2 x (List.mem_cons_of_mem _ hx)) hr]

/-- The output of `encodeFile` depends on the code table only through the
codes the subscript yields. -/
theorem encodeFile_congr (m1 m2 : CharMap (List Bool)) (reads : List (List Sym))
    (hz : ∀ b ∈ reads, (0 : Sym) ∈ b) (h : ∀ c, codeOf m1 c = codeOf m2 c) :
    encodeFile m1 reads = encodeFile m2 reads := by
  obtain ⟨o1, e1, b1, _, l1⟩ := encodeFile_eq m1 reads hz
  obtain ⟨o2, e2, b2, _, l2⟩ := encodeFile_eq m2 reads hz
  have hcc : concatCodes m1 (processed reads) = concatCodes m2 (processed reads) := by
    unfold concatCodes
    congr 1
    funext c
    exact h c
  have htt : totalCodeBits m1 (processed reads) = totalCodeBits m2 (processed reads) := by
    rw [← length_concatCodes, ← length_concatCodes, hcc]
  rw [e1, e2, bytesBits_injective o1 o2 l1 l2 (by rw [b1, b2, hcc, htt])]

/-- C13, as the code has it: when every buffer read holds a zero byte,
`encodeFile` returns an output for every code table, also when an input symbol
has no entry: it has no failure for an unknown symbol. A symbol without an
entry is given the empty code by the subscript, and the output is that for the
table with the empty code entered for the symbol. -/
theorem encodeFile_unknown_symbol (codeMapping : CharMap (List Bool))
    (reads : List (List Sym)) (hz : ∀ b ∈ reads, (0 : Sym) ∈ b) :
    ∃ out, encodeFile codeMapping reads = some out ∧
      ∀ c, CharMap.find codeMapping c = none →
        codeOf codeMapping c = [] ∧
        encodeFile (CharMap.assign codeMapping c []) reads = some out := by
  obtain ⟨out, h1, _⟩ := encodeFile_eq codeMapping reads hz
  refine ⟨out, h1, fun c hc => ⟨by simp [codeOf, hc], ?_⟩⟩
  rw [← h1]
  apply encodeFile_congr _ _ reads hz
  intro k
  unfold codeOf
  rw [find_assign]
  by_cases hk : k = c
  · simp [hk, hc]
  · simp [hk]

theorem encodeFile_unknown_symbol_witness :
    ∃ out, encodeFile [(97, [true])] [[97, 98, 0]] = some out ∧
      encodeFile (CharMap.assign [(97, [true])] 98 []) [[97, 98, 0]] = some out := by
  obtain ⟨out, h1, h2⟩ := encodeFile_unknown_symbol [(97, [true])] [[97, 98, 0]]
    (by decide)
  exact ⟨out, h1, (h2 98 (by decide)).2⟩

/-- C13 fails as stated: with the table `{a ↦ 1}` and the input `ab` the
symbol `b` has no entry, and `encodeFile` does not fail: it writes the byte
`0x80`, as it does for the input `a`. -/
theorem encodeFile_missing_no_failure :
    CharMap.find [(97, [true])] 98 = none ∧
      encodeFile [(97, [true])] [[97, 98, 0]] = some [128] ∧
      encodeFile [(97, [true])] [[97, 0]] = some [128] := by
  decide

/-! ## An input that starts with the terminator -/

/-- The merge loop on the empty queue has no result, whatever the fuel: with
fuel left it is `top()` on the empty queue that is undefined. -/
theorem mergeLoop_nil (fuel : Nat) : mergeLoop fuel [] = none := by
  cases fuel with
  | zero => rfl
  | succ n => simp [mergeLoop, pqTop]

/-- The run of `compression` call by call ends with the outcome of
`compression`. -/
theorem compressionRun_result (reads reads2 : List (List Sym)) :
    (compressionRun reads reads2).2 = compression reads reads2 := by
  unfold compressionRun compression
  cases buildFreqTable reads with
  | none => rfl
  | some m =>
    simp only
    cases buildTree m <;> rfl

/-- C12, as the code has it: for an input whose first byte is the terminator
(a buffer that starts with a zero byte), and for a run that reads no buffer at
all, the frequency table has zero entries; `compression` has no guard and no
failure `EmptyInput`: after `buildFreqTable` it calls `buildTree` on the empty
table. That call is the last one of the run (its loop calls `top()` on the
empty queue): `encodeFile` is not called, so no output bytes are written, and
the run has no output. -/
theorem compression_empty_table (rest : List Sym) (reads2 : List (List Sym)) :
    (buildFreqTable [0 :: rest] = some [] ∧
      (compressionRun [0 :: rest] reads2).1 = [Call.buildFreqTable, Call.buildTree []] ∧
      Call.encodeFile ∉ (compressionRun [0 :: rest] reads2).1 ∧
      compression [0 :: rest] reads2 = none) ∧
    (buildFreqTable [] = some [] ∧
      (compressionRun [] reads2).1 = [Call.buildFreqTable, Call.buildTree []] ∧
      Call.encodeFile ∉ (compressionRun [] reads2).1 ∧
      compression [] reads2 = none) ∧
    ∀ fuel, mergeLoop (fuel + 1) [] = pqTop ([] : List huffmanNode) := by
  have h1 : buildFreqTable [0 :: rest] = some [] := by
    simp [buildFreqTable, countChunks, countChunk]
  have h2 : buildFreqTable [] = some [] := rfl
  have h3 : buildTree [] = none := rfl
  have r1 : (compressionRun [0 :: rest] reads2).1 =
      [Call.buildFreqTable, Call.buildTree []] := by
    simp only [compressionRun, h1, h3]
  have r2 : (compressionRun [] reads2).1 = [Call.buildFreqTable, Call.buildTree []] := by
    simp only [compressionRun, h2, h3]
  refine ⟨⟨h1, r1, ?_, ?_⟩, ⟨h2, r2, ?_, ?_⟩, ?_⟩
  · rw [r1]; decide
  · simp only [compression, h1, h3]
  · rw [r2]; decide
  · simp only [compression, h2, h3]
  · intro fuel
    simp [mergeLoop, pqTop]

/-- C12 fails as stated: for the input whose only byte is the terminator the
table is empty and `compression` does call `buildTree` on it: the call is in
the run, and it is the last one. There the size of the queue is 0 and not 1,
so the loop calls `top()` on the empty queue, which is undefined; the run ends
without an outcome, not with a reported failure. -/
theorem empty_input_runs_buildTree :
    buildFreqTable [[0]] = some [] ∧
      Call.buildTree [] ∈ (compressionRun [[0]] [[0]]).1 ∧
      (compressionRun [[0]] [[0]]).1 = [Call.buildFreqTable, Call.buildTree []] ∧
      pushLeaves [] [] = [] ∧
      (([] : List huffmanNode).length ≠ 1) ∧
      pqTop ([] : List huffmanNode) = none ∧
      mergeLoop 1 [] = none ∧
      compression [[0]] [[0]] = none := by
  decide

/-! ## A table of two symbols -/

theorem leaf_of_internalCount_zero (t : huffmanNode) (h : internalCount t = 0) :
    ∃ c f, t = LeafNode c f := by
  cases t with
  | LeafNode c f => exact ⟨c, f, rfl⟩
  | InternalNode f l r => simp [internalCount] at h

/-- C14: for every frequency table with exactly two entries, `buildTree`
returns one internal node whose two children are leaves, the leaves being the
two entries of the table, and every symbol of the table gets a code of length
exactly 1. For the input `aaaab` the compression writes exactly one byte,
`0xF0`: five code bits followed by three zero bits at the low end. -/
theorem two_symbol_table (m : CharMap Int) (h2 : m.length = 2) :
    (∃ t, buildTree m = some t ∧
      (∃ f c1 f1 c2 f2, t = InternalNode f (LeafNode c1 f1) (LeafNode c2 f2) ∧
        List.Perm [(c1, f1), (c2, f2)] m) ∧
      ∀ c ∈ CharMap.keys m, ∃ code,
        CharMap.find (buildHuffmanCodes [] (some t) []) c = some code ∧ code.length = 1) ∧
    (buildFreqTable [[97, 97, 97, 97, 98, 0]] = some [(97, 4), (98, 1)] ∧
      compression [[97, 97, 97, 97, 98, 0]] [[97, 97, 97, 97, 98, 0]] = some [240] ∧
      byteBits 240 = [true, true, true, true, false, false, false, false] ∧
      totalCodeBits (buildHuffmanCodes [] (buildTree [(97, 4), (98, 1)]) [])
        [97, 97, 97, 97, 98] = 5) := by
  refine ⟨?_, by decide⟩
  have hne : m ≠ [] := by
    intro h
    rw [h] at h2
    simp at h2
  obtain ⟨t, ht, hp⟩ := buildTree_leaves m hne
  have hl := hp.length_eq
  rw [h2] at hl
  cases t with
  | LeafNode c f => simp [leaves] at hl
  | InternalNode f l r =>
    have h3 := length_leaves l
    have h4 := length_leaves r
    simp only [leaves, List.length_append] at hl
    obtain ⟨c1, f1, rfl⟩ := leaf_of_internalCount_zero l (by omega)
    obtain ⟨c2, f2, rfl⟩ := leaf_of_internalCount_zero r (by omega)
    have hp' : List.Perm [(c1, f1), (c2, f2)] m := by simpa [leaves] using hp
    refine ⟨_, ht, ⟨f, c1, f1, c2, f2, rfl, hp'⟩, ?_⟩
    intro c hc
    have hck : c ∈ CharMap.keys [(c1, f1), (c2, f2)] :=
      (hp'.map Prod.fst).mem_iff.2 hc
    simp only [CharMap.keys, List.map_cons, List.map_nil, List.mem_cons, List.mem_singleton,
      List.not_mem_nil, or_false] at hck
    simp only [buildHuffmanCodes, buildHuffmanCodesNode_internal, buildHuffmanCodesNode,
      List.nil_append, find_assign]
    by_cases hc2 : c = c2
    · exact ⟨[true], by simp [hc2], rfl⟩
    · have hc1 : c = c1 := by
        rcases hck with h | h
        · exact h
        · exact absurd h hc2
      exact ⟨[false], by rw [if_neg hc2, if_pos hc1], rfl⟩

theorem two_symbol_table_witness :
    ∃ t, buildTree [(97, 4), (98, 1)] = some t ∧
      ∃ f c1 f1 c2 f2, t = InternalNode f (LeafNode c1 f1) (LeafNode c2 f2) := by
  obtain ⟨⟨t, ht, ⟨f, c1, f1, c2, f2, hf, _⟩, _⟩, _⟩ :=
    two_symbol_table [(97, 4), (98, 1)] (by decide)
  exact ⟨t, ht, f, c1, f1, c2, f2, hf⟩

/-! ## Code length against frequency -/

theorem leafPaths_eq_rows (t : huffmanNode) :
    leafPaths t = (leafRows t).map (fun e => (e.1, e.2.2)) := by
  induction t with
  | LeafNode c f => rfl
  | InternalNode f l r ihl ihr =>
    simp only [leafPaths, leafRows, ihl, ihr, List.map_append, List.map_map]
    rfl

theorem leaves_eq_rows (t : huffmanNode) :
    leaves t = (leafRows t).map (fun e => (e.1, e.2.1)) := by
  induction t with
  | LeafNode c f => rfl
  | InternalNode f l r ihl ihr =>
    simp only [leaves, leafRows, ihl, ihr, List.map_append, List.map_map]
    rfl

theorem leafDepths_eq_rows (t : huffmanNode) (d : Nat) :
    leafDepths d t =
      (((leafRows t).map (fun e => (e.2.1, d + e.2.2.length)) : List (Int × Nat)) :
        Multiset (Int × Nat)) := by
  induction t generalizing d with
  | LeafNode c f => simp [leafDepths, leafRows]
  | InternalNode f l r ihl ihr =>
    simp only [leafDepths, leafRows, ihl, ihr, List.map_append, List.map_map,
      Multiset.coe_add]
    congr 2
    · apply List.map_congr_left
      intro e _
      simp only [Function.comp, List.length_cons, Prod.mk.injEq, true_and]
      omega
    · apply List.map_congr_left
      intro e _
      simp only [Function.comp, List.length_cons, Prod.mk.injEq, true_and]
      omega

/-- C17, with the proviso the code needs: for every non-empty frequency table
(keys strictly ascending, as in a `std::map`) whose counts are non-negative
and add up to at most `2 ^ 31 - 1` (so that no sum of frequencies overflows
`int`), and every two symbols `a` and `b` of it, if the count of `a` is
strictly greater than the count of `b`, then the code stored for `a` is no
longer than the code stored for `b`. -/
theorem code_length_antitone (m : CharMap Int) (hne : m ≠ []) (hwf : CharMap.WF m)
    (hnn : ∀ e ∈ m, 0 ≤ e.2) (hsum : (values m).sum ≤ 2147483647) :
    ∃ t, buildTree m = some t ∧
      ∀ a b wa wb ca cb, (a, wa) ∈ m → (b, wb) ∈ m → wb < wa →
        CharMap.find (buildHuffmanCodes [] (some t) []) a = some ca →
        CharMap.find (buildHuffmanCodes [] (some t) []) b = some cb →
        ca.length ≤ cb.length := by
  obtain ⟨t, ht, hp⟩ := buildTree_leaves m hne
  have hnd : (leafSyms t).Nodup :=
    (leafSyms_perm_keys m t hp).symm.nodup (nodup_keys_of_wf m hwf)
  refine ⟨t, ht, ?_⟩
  intro a b wa wb ca cb ha hb hlt hca hcb
  by_cases hab : a = b
  · subst hab
    rw [hca] at hcb
    rw [Option.some.inj hcb]
  · have row : ∀ s w c, (s, w) ∈ m →
        CharMap.find (buildHuffmanCodes [] (some t) []) s = some c →
        (s, w, c) ∈ leafRows t := by
      intro s w c hs hc
      have hl : (s, w) ∈ leaves t := hp.mem_iff.2 hs
      rw [leaves_eq_rows, List.mem_map] at hl
      obtain ⟨e, he, hee⟩ := hl
      simp only [Prod.mk.injEq] at hee
      have hpath : (s, e.2.2) ∈ leafPaths t := by
        rw [leafPaths_eq_rows, List.mem_map]
        exact ⟨e, he, by rw [hee.1]⟩
      have := find_codes_leaf t [] [] hnd s e.2.2 hpath
      rw [List.nil_append] at this
      unfold buildHuffmanCodes at hc
      simp only at hc
      rw [this] at hc
      have hce : e.2.2 = c := Option.some.inj hc
      have : e = (s, w, c) := by
        rw [← hee.1, ← hee.2, ← hce]
      rw [← this]
      exact he
    have hra := row a wa ca ha hca
    have hrb := row b wb cb hb hcb
    have hne' : (b, wb, cb) ≠ (a, wa, ca) := by
      intro h
      exact hab (congrArg Prod.fst h).symm
    have hperm : ∃ others, List.Perm (leafRows t)
        ((a, wa, ca) :: (b, wb, cb) :: others) := by
      obtain ⟨s1, s2, hs⟩ := List.append_of_mem hra
      have hb' : (b, wb, cb) ∈ s1 ++ s2 := by
        rw [hs] at hrb
        rcases List.mem_append.1 hrb with h | h
        · exact List.mem_append_left _ h
        · rcases List.mem_cons.1 h with h | h
          · exact absurd h hne'
          · exact List.mem_append_right _ h
      obtain ⟨u1, u2, hu⟩ := List.append_of_mem hb'
      refine ⟨u1 ++ u2, ?_⟩
      rw [hs]
      refine List.perm_middle.trans (List.Perm.cons _ ?_)
      rw [hu]
      exact List.perm_middle
    obtain ⟨others, hperm⟩ := hperm
    have hL : leafDepths 0 t =
        (wa, ca.length) ::ₘ (wb, cb.length) ::ₘ
          (((others.map (fun e => (e.2.1, 0 + e.2.2.length)) : List (Int × Nat))) :
            Multiset (Int × Nat)) := by
      rw [leafDepths_eq_rows]
      have := hperm.map (fun e : Sym × Int × List Bool => (e.2.1, 0 + e.2.2.length))
      rw [Multiset.coe_eq_coe.2 this]
      simp
    generalize (((others.map (fun e => (e.2.1, 0 + e.2.2.length)) : List (Int × Nat))) :
      Multiset (Int × Nat)) = S at hL
    by_contra hcon
    have hlen : cb.length < ca.length := by omega
    have hK := kraftAt_leafDepths t
    rw [hL] at hK
    obtain ⟨hb1, hk1⟩ := hK
    have hK' : KraftAt (height t) ((wa, cb.length) ::ₘ (wb, ca.length) ::ₘ S) := by
      refine ⟨?_, ?_⟩
      · intro p hp'
        rcases Multiset.mem_cons.1 hp' with rfl | hp'
        · exact hb1 (wb, cb.length) (by simp)
        · rcases Multiset.mem_cons.1 hp' with rfl | hp'
          · exact hb1 (wa, ca.length) (by simp)
          · exact hb1 p (by simp [hp'])
      · rw [kraft_cons, kraft_cons] at hk1 ⊢
        simp only at hk1 ⊢
        omega
    have hw' : ((wa, cb.length) ::ₘ (wb, ca.length) ::ₘ S).map Prod.fst =
        (((m.map Prod.snd : List Int)) : Multiset Int) := by
      have h1 := weights_leafDepths t 0
      rw [hL] at h1
      have h2 : ((((leaves t).map Prod.snd : List Int)) : Multiset Int) =
          (((m.map Prod.snd : List Int)) : Multiset Int) :=
        Multiset.coe_eq_coe.2 (hp.map Prod.snd)
      rw [← h2, ← h1]
      simp
    obtain ⟨t2, ht2, hc⟩ := buildTree_le_wcost m hne hnn hsum _ (height t) hK' hw'
    have ht2t : t2 = t := by
      rw [ht] at ht2
      exact (Option.some.inj ht2).symm
    subst ht2t
    rw [costFrom_eq_wcost, hL] at hc
    simp only [wcost_cons] at hc
    have h1 : (0 : Int) < wa - wb := by linarith
    have h2 : (0 : Int) < (ca.length : Int) - (cb.length : Int) := by
      have : (cb.length : Int) < (ca.length : Int) := by exact_mod_cast hlen
      linarith
    nlinarith [mul_pos h1 h2]

theorem code_length_antitone_witness :
    ∃ t, buildTree [(97, 5), (98, 1), (99, 2)] = some t ∧
      ∀ ca cb,
        CharMap.find (buildHuffmanCodes [] (some t) []) 97 = some ca →
        CharMap.find (buildHuffmanCodes [] (some t) []) 98 = some cb →
        ca.length ≤ cb.length := by
  obtain ⟨t, ht, h⟩ := code_length_antitone [(97, 5), (98, 1), (99, 2)] (by decide)
    (by unfold CharMap.WF; decide) (by decide) (by decide)
  exact ⟨t, ht, fun ca cb hca hcb =>
    h 97 98 5 1 ca cb (by decide) (by decide) (by decide) hca hcb⟩


/-- C17 fails as stated: for the table `{a:1073741823, b:1073741823,
c:1073741824, d:1073741824, e:1073741829}`, whose counts each fit an `int`,
the sums of frequencies wrap, and `c`, whose count is strictly greater than
that of `a`, gets a code of three bits while `a` gets a code of two bits. -/
theorem code_length_overflow :
    CharMap.find
        (buildHuffmanCodes []
          (buildTree [(97, 1073741823), (98, 1073741823), (99, 1073741824),
            (100, 1073741824), (101, 1073741829)]) []) 99 =
      some [false, false, false] ∧
    CharMap.find
        (buildHuffmanCodes []
          (buildTree [(97, 1073741823), (98, 1073741823), (99, 1073741824),
            (100, 1073741824), (101, 1073741829)]) []) 97 =
      some [true, false] ∧
    (1073741823 : Int) < 1073741824 ∧
    ¬ ([false, false, false] : List Bool).length ≤ ([true, false] : List Bool).length := by
  decide

end Huffman
